import Mathlib

/-!
# Savefile core: a shallow embedding of `savefile.rs`

This file embeds the core of the `savefile` versioned binary serialization
library (file `src/savefile/src/savefile.rs`) and proves properties of the
embedded code: the byte codec, the `Schema` algebra and its wire format, the
`diff_schema` comparator, the generic container codecs (string, vector,
hash map, removed-field placeholder), the POD (`ReprC`) fast path, and the
top-level `save_impl`/`load_impl` drivers.

Modelling conventions:
* Byte streams are `List Nat` (each byte `< 256` where produced by the code).
* Machine integers are `Nat`/`Int`; wrap-around is explicit (`% 2^w`).
  Rust type invariants (e.g. a `u32` version is `< 2^32`, a `Vec` length is
  `< 2^64`) become `valid` predicates / hypotheses.
* `std::io` read/write errors on a pure byte-list source correspond to
  running off the end of the stream (`read_exact` of more bytes than remain).
* A Rust `panic!` is a distinct terminal outcome (`SResult.fatal`), separate
  from returned `Err` values (`SResult.err`).
* Error payloads (format! strings) are modelled structurally: each `format!`
  site becomes a constructor carrying the interpolated data.
-/

namespace Savefile

/-- The recoverable error cases of `SavefileError` that the embedded core can
produce. `incompatibleSchema` carries the structured diff report. -/
inductive SErr where
  | ioError : SErr
  | invalidUtf8 : SErr
  | incompatibleSchema : SErr
  | memoryAllocationLayoutError : SErr
  deriving DecidableEq, Repr

/-- The `panic!` sites of the embedded core, one constructor per site,
carrying the data interpolated into the panic message. -/
inductive Panic where
  /-- `load_impl`: "File has later version ({}) than structs in memory ({})." -/
  | newerFileVersion (file mem : Nat) : Panic
  /-- `SchemaPrimitive::deserialize`: "Corrupt schema, primitive type #{} encountered". -/
  | corruptPrimitive (c : Nat) : Panic
  /-- `Schema::deserialize`: "Corrupt schema, schema variant had value {}". -/
  | corruptSchemaVariant (c : Nat) : Panic
  /-- `Removed::serialize`: "... attempt to actually serialize a removed field!". -/
  | removedFieldSerialized : Panic
  /-- `save_impl`: `.unwrap()` on a failed version write. -/
  | unwrapFailedOnVersionWrite : Panic
  deriving DecidableEq, Repr

/-- Outcome of an embedded operation: a value, a returned `Err`, or a panic. -/
inductive SResult (α : Type) where
  | ok : α → SResult α
  | err : SErr → SResult α
  | fatal : Panic → SResult α
  deriving DecidableEq, Repr

/-! ## Little-endian byte encoding

`leBytes k n` is the `k`-byte little-endian encoding of `n` (truncating, as a
Rust integer cast does); `decodeLE` is the inverse read. -/

/-- `k`-byte little-endian encoding of `n`, least significant byte first. -/
def leBytes : Nat → Nat → List Nat
  | 0, _ => []
  | k + 1, n => n % 256 :: leBytes k (n / 256)

/-- Little-endian decoding of a byte list. -/
def decodeLE : List Nat → Nat
  | [] => 0
  | b :: bs => b + 256 * decodeLE bs

/-- `write_u16` byte image. -/
def u16le (n : Nat) : List Nat := leBytes 2 n

/-- `write_u32` byte image. -/
def u32le (n : Nat) : List Nat := leBytes 4 n

/-- `write_u64` / `write_usize` byte image (`usize` crosses the wire as `u64`). -/
def u64le (n : Nat) : List Nat := leBytes 8 n

/-- Two's-complement encoding of a signed `w`-bit value into a `Nat < 2^w`
(the bit image that `write_iN` emits, little-endian, via `leBytes`). -/
def intEncode (w : Nat) (x : Int) : Nat := (x % (2 ^ w : Nat)).toNat

/-- Two's-complement reading of a `w`-bit bit image as a signed value
(what `read_iN` yields). -/
def intDecode (w : Nat) (n : Nat) : Int :=
  if n < 2 ^ (w - 1) then (n : Int) else (n : Int) - (2 ^ w : Nat)

/-! ## The byte source

A deserializer's reader is a byte list; each primitive read returns the value
and the unconsumed tail, or `ioError` when fewer bytes remain than requested
(`read_exact` on a short stream). -/

/-- `read_exact` of `n` bytes: the bytes and the tail, or an I/O error (the
stream is left as-is on failure in this model; no claim depends on how much a
failed `read_exact` consumed). -/
def readNSt (n : Nat) (l : List Nat) : SResult (List Nat) × List Nat :=
  if n ≤ l.length then (.ok (l.take n), l.drop n) else (.err .ioError, l)

/-- `read_u8`. -/
def readU8St (l : List Nat) : SResult Nat × List Nat :=
  match readNSt 1 l with
  | (.ok b, r) => (.ok (decodeLE b), r)
  | (.err e, r) => (.err e, r)
  | (.fatal p, r) => (.fatal p, r)

/-- `read_u16` (little-endian). -/
def readU16St (l : List Nat) : SResult Nat × List Nat :=
  match readNSt 2 l with
  | (.ok b, r) => (.ok (decodeLE b), r)
  | (.err e, r) => (.err e, r)
  | (.fatal p, r) => (.fatal p, r)

/-- `read_u32` (little-endian). -/
def readU32St (l : List Nat) : SResult Nat × List Nat :=
  match readNSt 4 l with
  | (.ok b, r) => (.ok (decodeLE b), r)
  | (.err e, r) => (.err e, r)
  | (.fatal p, r) => (.fatal p, r)

/-- `read_u64` / `read_usize` (little-endian). -/
def readU64St (l : List Nat) : SResult Nat × List Nat :=
  match readNSt 8 l with
  | (.ok b, r) => (.ok (decodeLE b), r)
  | (.err e, r) => (.err e, r)
  | (.fatal p, r) => (.fatal p, r)

/-! ## UTF-8 validation

`read_string` validates its bytes via `String::from_utf8`; this is the
standard UTF-8 well-formedness check (RFC 3629 ranges, no surrogates, no
overlongs), as a byte-level state walk. -/

/-- Is `l` a well-formed UTF-8 byte sequence? -/
def utf8Valid : List Nat → Bool
  | [] => true
  | b :: rest =>
    if b < 0x80 then utf8Valid rest
    else if 0xC2 ≤ b ∧ b ≤ 0xDF then
      match rest with
      | c1 :: rest' => (0x80 ≤ c1 ∧ c1 ≤ 0xBF : Bool) && utf8Valid rest'
      | [] => false
    else if b = 0xE0 then
      match rest with
      | c1 :: c2 :: rest' =>
        (0xA0 ≤ c1 ∧ c1 ≤ 0xBF : Bool) && (0x80 ≤ c2 ∧ c2 ≤ 0xBF : Bool) && utf8Valid rest'
      | _ => false
    else if (0xE1 ≤ b ∧ b ≤ 0xEC) ∨ b = 0xEE ∨ b = 0xEF then
      match rest with
      | c1 :: c2 :: rest' =>
        (0x80 ≤ c1 ∧ c1 ≤ 0xBF : Bool) && (0x80 ≤ c2 ∧ c2 ≤ 0xBF : Bool) && utf8Valid rest'
      | _ => false
    else if b = 0xED then
      match rest with
      | c1 :: c2 :: rest' =>
        (0x80 ≤ c1 ∧ c1 ≤ 0x9F : Bool) && (0x80 ≤ c2 ∧ c2 ≤ 0xBF : Bool) && utf8Valid rest'
      | _ => false
    else if b = 0xF0 then
      match rest with
      | c1 :: c2 :: c3 :: rest' =>
        (0x90 ≤ c1 ∧ c1 ≤ 0xBF : Bool) && (0x80 ≤ c2 ∧ c2 ≤ 0xBF : Bool) &&
          (0x80 ≤ c3 ∧ c3 ≤ 0xBF : Bool) && utf8Valid rest'
      | _ => false
    else if 0xF1 ≤ b ∧ b ≤ 0xF3 then
      match rest with
      | c1 :: c2 :: c3 :: rest' =>
        (0x80 ≤ c1 ∧ c1 ≤ 0xBF : Bool) && (0x80 ≤ c2 ∧ c2 ≤ 0xBF : Bool) &&
          (0x80 ≤ c3 ∧ c3 ≤ 0xBF : Bool) && utf8Valid rest'
      | _ => false
    else if b = 0xF4 then
      match rest with
      | c1 :: c2 :: c3 :: rest' =>
        (0x80 ≤ c1 ∧ c1 ≤ 0x8F : Bool) && (0x80 ≤ c2 ∧ c2 ≤ 0xBF : Bool) &&
          (0x80 ≤ c3 ∧ c3 ≤ 0xBF : Bool) && utf8Valid rest'
      | _ => false
    else false

/-- `write_string`: `len` as `u64` little-endian, then the raw bytes. -/
def serStr (s : List Nat) : List Nat := u64le s.length ++ s

/-- `read_string`: read `len:usize`, read exactly `len` bytes, validate UTF-8
(`InvalidUtf8` on failure). The string stays in byte form: a Rust `String`
is exactly an owned, validated UTF-8 byte buffer. -/
def readStringSt (l : List Nat) : SResult (List Nat) × List Nat :=
  match readU64St l with
  | (.ok n, r) =>
    match readNSt n r with
    | (.ok s, r') => if utf8Valid s then (.ok s, r') else (.err .invalidUtf8, r')
    | (.err e, r') => (.err e, r')
    | (.fatal p, r') => (.fatal p, r')
  | (.err e, r) => (.err e, r)
  | (.fatal p, r) => (.fatal p, r)

/-! ## The Schema algebra

`Schema` is the tagged tree from the source: `Struct` (debug name + named
fields), `Enum` (variants with name, `u16` discriminator, fields),
`Primitive`, `Vector`, `Undefined`.  Names are UTF-8 byte lists (a Rust
`String`).  A `Field` is its name and value schema; a `Variant` is its name,
discriminator and field list. -/

/-- The 11 primitive kinds (`SchemaPrimitive`). -/
inductive SchemaPrimitive where
  | schema_i8 | schema_u8 | schema_i16 | schema_u16 | schema_i32 | schema_u32
  | schema_i64 | schema_u64 | schema_isize | schema_usize | schema_string
  deriving DecidableEq, Repr

/-- The recursive schema tree (`Schema`, `SchemaStruct`, `SchemaEnum`,
`Field`, `Variant` flattened: a field is `(name, value)`, a variant is
`(name, discriminator, fields)`). -/
inductive Schema where
  | Struct (dbg_name : List Nat) (fields : List (List Nat × Schema))
  | Enum (variants : List (List Nat × Nat × List (List Nat × Schema)))
  | Primitive (p : SchemaPrimitive)
  | Vector (element : Schema)
  | Undefined

/-- A struct/enum field: name and value schema. -/
abbrev Field := List Nat × Schema

/-- An enum variant: name, `u16` discriminator, fields. -/
abbrev Variant := List Nat × Nat × List Field

/-- The structured content of each diff mismatch report (`format!` site),
carrying the `/`-joined path (as bytes) and the interpolated data. -/
inductive DiffErr where
  | kindMismatch (path : List Nat) (atype btype : String)
  | undefinedSchema (path : List Nat)
  | primMismatch (path : List Nat) (a b : SchemaPrimitive)
  | fieldCountMismatch (path : List Nat) (structuretype : String)
      (extraA extraB : List Nat) (la lb : Nat)
  | fieldNameMismatch (path : List Nat) (i : Nat)
      (extraA extraB : List Nat) (na nb : List Nat)
  | variantCountMismatch (path : List Nat) (la lb : Nat)
  | variantNameMismatch (path : List Nat) (i : Nat) (na nb : List Nat)
  | variantDiscrMismatch (path : List Nat) (i : Nat) (da db : Nat)
  deriving DecidableEq, Repr

/-- `diff_primitive`. -/
def diff_primitive (a b : SchemaPrimitive) (path : List Nat) : Option DiffErr :=
  if a ≠ b then some (.primMismatch path a b) else none

mutual

/-- `diff_schema`: `None` when the comparator finds no difference.  Kind
mismatches name both kinds; an `Undefined` on the left is reported as
"Undefined schema encountered" regardless of the right side. -/
def diff_schema (a b : Schema) (path : List Nat) : Option DiffErr :=
  match a, b with
  | .Struct na fa, .Struct _nb fb => diff_struct na fa _nb fb path
  | .Struct _ _, .Enum _ => some (.kindMismatch path "struct" "enum")
  | .Struct _ _, .Primitive _ => some (.kindMismatch path "struct" "primitive")
  | .Struct _ _, .Vector _ => some (.kindMismatch path "struct" "vector")
  | .Struct _ _, .Undefined => some (.kindMismatch path "struct" "undefined")
  | .Enum va, .Enum vb => diff_enum va vb path
  | .Enum _, .Struct _ _ => some (.kindMismatch path "enum" "struct")
  | .Enum _, .Primitive _ => some (.kindMismatch path "enum" "primitive")
  | .Enum _, .Vector _ => some (.kindMismatch path "enum" "vector")
  | .Enum _, .Undefined => some (.kindMismatch path "enum" "undefined")
  | .Primitive pa, .Primitive pb => diff_primitive pa pb path
  | .Primitive _, .Struct _ _ => some (.kindMismatch path "primitive" "struct")
  | .Primitive _, .Enum _ => some (.kindMismatch path "primitive" "enum")
  | .Primitive _, .Vector _ => some (.kindMismatch path "primitive" "vector")
  | .Primitive _, .Undefined => some (.kindMismatch path "primitive" "undefined")
  | .Vector ea, .Vector eb => diff_schema ea eb (path ++ [47, 42])
  | .Vector _, .Struct _ _ => some (.kindMismatch path "vector" "struct")
  | .Vector _, .Enum _ => some (.kindMismatch path "vector" "enum")
  | .Vector _, .Primitive _ => some (.kindMismatch path "vector" "primitive")
  | .Vector _, .Undefined => some (.kindMismatch path "vector" "undefined")
  | .Undefined, _ => some (.undefinedSchema path)
termination_by (sizeOf a, 3)
decreasing_by all_goals (simp_wf; omega)

/-- `diff_struct`: delegates to `diff_fields`, passing the debug names only
for use in the report (they are never compared). -/
def diff_struct (na : List Nat) (fa : List Field) (nb : List Nat) (fb : List Field)
    (path : List Nat) : Option DiffErr :=
  diff_fields fa fb path "struct" na nb
termination_by (sizeOf fa, 2)
decreasing_by all_goals (simp_wf; omega)

/-- `diff_fields`: field-count check, then the indexed walk. -/
def diff_fields (a b : List Field) (path : List Nat) (structuretype : String)
    (extraA extraB : List Nat) : Option DiffErr :=
  if a.length ≠ b.length then
    some (.fieldCountMismatch path structuretype extraA extraB a.length b.length)
  else diff_fields_walk 0 a b path structuretype extraA extraB
termination_by (sizeOf a, 1)
decreasing_by all_goals (simp_wf; omega)

/-- The `for i in 0..a.len()` loop of `diff_fields`: compare names, then
recurse into the field schema under `path/name`. -/
def diff_fields_walk (i : Nat) (a b : List Field) (path : List Nat)
    (structuretype : String) (extraA extraB : List Nat) : Option DiffErr :=
  match a, b with
  | (n1, s1) :: r1, (n2, s2) :: r2 =>
    if n1 ≠ n2 then some (.fieldNameMismatch path i extraA extraB n1 n2)
    else
      match diff_schema s1 s2 (path ++ [47] ++ n1) with
      | some e => some e
      | none => diff_fields_walk (i + 1) r1 r2 path structuretype extraA extraB
  | _, _ => none
termination_by (sizeOf a, 0)
decreasing_by all_goals (simp_wf; omega)

/-- `diff_enum`: variant-count check, then the indexed walk. -/
def diff_enum (va vb : List Variant) (path : List Nat) : Option DiffErr :=
  if va.length ≠ vb.length then some (.variantCountMismatch path va.length vb.length)
  else diff_variants_walk 0 va vb path
termination_by (sizeOf va, 2)
decreasing_by all_goals (simp_wf; omega)

/-- The `for i in 0..a.variants.len()` loop of `diff_enum`: compare names,
discriminators, then the variant's fields under `path/name`. -/
def diff_variants_walk (i : Nat) (va vb : List Variant) (path : List Nat) :
    Option DiffErr :=
  match va, vb with
  | (n1, d1, f1) :: r1, (n2, d2, f2) :: r2 =>
    if n1 ≠ n2 then some (.variantNameMismatch path i n1 n2)
    else if d1 ≠ d2 then some (.variantDiscrMismatch path i d1 d2)
    else
      match diff_fields f1 f2 (path ++ [47] ++ n1) "enum" [] [] with
      | some e => some e
      | none => diff_variants_walk (i + 1) r1 r2 path
  | _, _ => none
termination_by (sizeOf va, 1)
decreasing_by all_goals (simp_wf; omega)

end

/-! ## Schema wire format -/

/-- The `u16` discriminator written by `SchemaPrimitive::serialize`. -/
def primDiscr : SchemaPrimitive → Nat
  | .schema_i8 => 1
  | .schema_u8 => 2
  | .schema_i16 => 3
  | .schema_u16 => 4
  | .schema_i32 => 5
  | .schema_u32 => 6
  | .schema_i64 => 7
  | .schema_u64 => 8
  | .schema_isize => 9
  | .schema_usize => 10
  | .schema_string => 11

/-- `SchemaPrimitive::serialize`: the discriminator as a `u16`. -/
def serPrimitive (p : SchemaPrimitive) : List Nat := u16le (primDiscr p)

/-- `SchemaPrimitive::deserialize`: a `u16` in the closed set `1..11`, any
other value is the "Corrupt schema, primitive type" panic. -/
def deserPrimitiveSt (l : List Nat) : SResult SchemaPrimitive × List Nat :=
  match readU16St l with
  | (.ok 1, r) => (.ok .schema_i8, r)
  | (.ok 2, r) => (.ok .schema_u8, r)
  | (.ok 3, r) => (.ok .schema_i16, r)
  | (.ok 4, r) => (.ok .schema_u16, r)
  | (.ok 5, r) => (.ok .schema_i32, r)
  | (.ok 6, r) => (.ok .schema_u32, r)
  | (.ok 7, r) => (.ok .schema_i64, r)
  | (.ok 8, r) => (.ok .schema_u64, r)
  | (.ok 9, r) => (.ok .schema_isize, r)
  | (.ok 10, r) => (.ok .schema_usize, r)
  | (.ok 11, r) => (.ok .schema_string, r)
  | (.ok c, r) => (.fatal (.corruptPrimitive c), r)
  | (.err e, r) => (.err e, r)
  | (.fatal p, r) => (.fatal p, r)

/-- The `u16` variant tag written by `Schema::serialize`. -/
def schemaTag : Schema → Nat
  | .Struct _ _ => 1
  | .Enum _ => 2
  | .Primitive _ => 3
  | .Vector _ => 4
  | .Undefined => 5

mutual

/-- `Schema::serialize`: variant tag, then the variant payload
(`SchemaStruct::serialize` is debug name + field count + fields;
`SchemaEnum::serialize` is variant count + variants). -/
def serSchema : Schema → List Nat
  | .Struct dbg fields => u16le 1 ++ serStr dbg ++ u64le fields.length ++ serFields fields
  | .Enum variants => u16le 2 ++ u64le variants.length ++ serVariants variants
  | .Primitive p => u16le 3 ++ serPrimitive p
  | .Vector e => u16le 4 ++ serSchema e
  | .Undefined => u16le 5
termination_by s => (sizeOf s, 1)
decreasing_by all_goals (simp_wf; omega)

/-- `Field::serialize`, repeated: name then value schema. -/
def serFields : List Field → List Nat
  | [] => []
  | (n, s) :: fs => serStr n ++ serSchema s ++ serFields fs
termination_by fs => (sizeOf fs, 0)
decreasing_by all_goals (simp_wf; omega)

/-- `Variant::serialize`, repeated: name, discriminator (`u16`), field count,
fields. -/
def serVariants : List Variant → List Nat
  | [] => []
  | (n, d, f) :: vs => serStr n ++ u16le d ++ u64le f.length ++ serFields f ++ serVariants vs
termination_by vs => (sizeOf vs, 0)
decreasing_by all_goals (simp_wf; omega)

end

mutual

/-- `Schema::deserialize`, fuel-indexed.  The fuel counts schema nesting
depth; the out-of-fuel branch is unreachable when the fuel exceeds half the
stream length (each level consumes a 2-byte tag before descending), and the
top-level wrapper `Schema.deserialize` always supplies that much.  A tag
outside `1..5` is the "Corrupt schema, schema variant" panic. -/
def deserSchemaF : Nat → List Nat → SResult Schema × List Nat
  | 0, l => (.err .ioError, l)
  | fuel + 1, l =>
    match readU16St l with
    | (.ok 1, r) =>
      match readStringSt r with
      | (.ok dbg, r1) =>
        match readU64St r1 with
        | (.ok n, r2) =>
          match deserFieldsF fuel n r2 with
          | (.ok fs, r3) => (.ok (.Struct dbg fs), r3)
          | (.err e, r3) => (.err e, r3)
          | (.fatal p, r3) => (.fatal p, r3)
        | (.err e, r2) => (.err e, r2)
        | (.fatal p, r2) => (.fatal p, r2)
      | (.err e, r1) => (.err e, r1)
      | (.fatal p, r1) => (.fatal p, r1)
    | (.ok 2, r) =>
      match readU64St r with
      | (.ok n, r1) =>
        match deserVariantsF fuel n r1 with
        | (.ok vs, r2) => (.ok (.Enum vs), r2)
        | (.err e, r2) => (.err e, r2)
        | (.fatal p, r2) => (.fatal p, r2)
      | (.err e, r1) => (.err e, r1)
      | (.fatal p, r1) => (.fatal p, r1)
    | (.ok 3, r) =>
      match deserPrimitiveSt r with
      | (.ok p, r1) => (.ok (.Primitive p), r1)
      | (.err e, r1) => (.err e, r1)
      | (.fatal p, r1) => (.fatal p, r1)
    | (.ok 4, r) =>
      match deserSchemaF fuel r with
      | (.ok e, r1) => (.ok (.Vector e), r1)
      | (.err e, r1) => (.err e, r1)
      | (.fatal p, r1) => (.fatal p, r1)
    | (.ok 5, r) => (.ok .Undefined, r)
    | (.ok c, r) => (.fatal (.corruptSchemaVariant c), r)
    | (.err e, r) => (.err e, r)
    | (.fatal p, r) => (.fatal p, r)
termination_by fuel l => (fuel, 0, 0)

/-- The field loop of `SchemaStruct::deserialize` / `Variant::deserialize`:
`n` repetitions of `Field::deserialize` (name, then schema). -/
def deserFieldsF : Nat → Nat → List Nat → SResult (List Field) × List Nat
  | _, 0, l => (.ok [], l)
  | fuel, n + 1, l =>
    match readStringSt l with
    | (.ok name, r) =>
      match deserSchemaF fuel r with
      | (.ok s, r1) =>
        match deserFieldsF fuel n r1 with
        | (.ok fs, r2) => (.ok ((name, s) :: fs), r2)
        | (.err e, r2) => (.err e, r2)
        | (.fatal p, r2) => (.fatal p, r2)
      | (.err e, r1) => (.err e, r1)
      | (.fatal p, r1) => (.fatal p, r1)
    | (.err e, r) => (.err e, r)
    | (.fatal p, r) => (.fatal p, r)
termination_by fuel n l => (fuel, 1, n)

/-- The variant loop of `SchemaEnum::deserialize`: `n` repetitions of
`Variant::deserialize` (name, discriminator, field count, fields). -/
def deserVariantsF : Nat → Nat → List Nat → SResult (List Variant) × List Nat
  | _, 0, l => (.ok [], l)
  | fuel, n + 1, l =>
    match readStringSt l with
    | (.ok name, r) =>
      match readU16St r with
      | (.ok d, r1) =>
        match readU64St r1 with
        | (.ok m, r2) =>
          match deserFieldsF fuel m r2 with
          | (.ok f, r3) =>
            match deserVariantsF fuel n r3 with
            | (.ok vs, r4) => (.ok ((name, d, f) :: vs), r4)
            | (.err e, r4) => (.err e, r4)
            | (.fatal p, r4) => (.fatal p, r4)
          | (.err e, r3) => (.err e, r3)
          | (.fatal p, r3) => (.fatal p, r3)
        | (.err e, r2) => (.err e, r2)
        | (.fatal p, r2) => (.fatal p, r2)
      | (.err e, r1) => (.err e, r1)
      | (.fatal p, r1) => (.fatal p, r1)
    | (.err e, r) => (.err e, r)
    | (.fatal p, r) => (.fatal p, r)
termination_by fuel n l => (fuel, 2, n)

end

/-- `Schema::deserialize`: the recursive reader with always-sufficient fuel
(nesting depth on any stream is at most half its length, since every
descent first consumes a 2-byte tag). -/
def Schema.deserialize (l : List Nat) : SResult Schema × List Nat :=
  deserSchemaF (l.length + 1) l

/-! ## Structural predicates on schemas (used only in statements/proofs) -/

mutual

/-- No `Undefined` node anywhere in the tree. -/
def noUndef : Schema → Bool
  | .Struct _ fs => noUndefFields fs
  | .Enum vs => noUndefVariants vs
  | .Primitive _ => true
  | .Vector e => noUndef e
  | .Undefined => false
termination_by s => (sizeOf s, 1)
decreasing_by all_goals (simp_wf; omega)

/-- `noUndef` over a field list. -/
def noUndefFields : List Field → Bool
  | [] => true
  | (_, s) :: fs => noUndef s && noUndefFields fs
termination_by fs => (sizeOf fs, 0)
decreasing_by all_goals (simp_wf; omega)

/-- `noUndef` over a variant list. -/
def noUndefVariants : List Variant → Bool
  | [] => true
  | (_, _, f) :: vs => noUndefFields f && noUndefVariants vs
termination_by vs => (sizeOf vs, 0)
decreasing_by all_goals (simp_wf; omega)

end

mutual

/-- Well-formedness of a schema as a value of the Rust types: names are valid
UTF-8 `String`s, list lengths and name lengths fit `usize`, discriminators
fit `u16`.  (Every schema produced by the Rust code satisfies this by
construction; it is what the wire round-trip needs.) -/
def schemaWf : Schema → Bool
  | .Struct dbg fs =>
    utf8Valid dbg && decide (dbg.length < 2 ^ 64) && decide (fs.length < 2 ^ 64) && wfFields fs
  | .Enum vs => decide (vs.length < 2 ^ 64) && wfVariants vs
  | .Primitive _ => true
  | .Vector e => schemaWf e
  | .Undefined => true
termination_by s => (sizeOf s, 1)
decreasing_by all_goals (simp_wf; omega)

/-- `schemaWf` over a field list. -/
def wfFields : List Field → Bool
  | [] => true
  | (n, s) :: fs =>
    utf8Valid n && decide (n.length < 2 ^ 64) && schemaWf s && wfFields fs
termination_by fs => (sizeOf fs, 0)
decreasing_by all_goals (simp_wf; omega)

/-- `schemaWf` over a variant list. -/
def wfVariants : List Variant → Bool
  | [] => true
  | (n, d, f) :: vs =>
    utf8Valid n && decide (n.length < 2 ^ 64) && decide (d < 2 ^ 16) &&
      decide (f.length < 2 ^ 64) && wfFields f && wfVariants vs
termination_by vs => (sizeOf vs, 0)
decreasing_by all_goals (simp_wf; omega)

end

mutual

/-- The equivalence that `diff_schema` actually decides (proved below):
structural equality that ignores struct debug names and rejects any
`Undefined` on either side. -/
def schemaCompat : Schema → Schema → Bool
  | .Struct _ fa, .Struct _ fb => fieldsCompat fa fb
  | .Enum va, .Enum vb => variantsCompat va vb
  | .Primitive p, .Primitive q => decide (p = q)
  | .Vector a, .Vector b => schemaCompat a b
  | _, _ => false
termination_by a _ => (sizeOf a, 1)
decreasing_by all_goals (simp_wf; omega)

/-- `schemaCompat` over field lists: same length, names equal, schemas
compatible, pointwise. -/
def fieldsCompat : List Field → List Field → Bool
  | [], [] => true
  | (n1, s1) :: r1, (n2, s2) :: r2 =>
    decide (n1 = n2) && schemaCompat s1 s2 && fieldsCompat r1 r2
  | _, _ => false
termination_by a _ => (sizeOf a, 0)
decreasing_by all_goals (simp_wf; omega)

/-- `schemaCompat` over variant lists. -/
def variantsCompat : List Variant → List Variant → Bool
  | [], [] => true
  | (n1, d1, f1) :: r1, (n2, d2, f2) :: r2 =>
    decide (n1 = n2) && decide (d1 = d2) && fieldsCompat f1 f2 && variantsCompat r1 r2
  | _, _ => false
termination_by a _ => (sizeOf a, 0)
decreasing_by all_goals (simp_wf; omega)

end

mutual

/-- Fuel needed by `deserSchemaF` to re-read a serialized schema: its
nesting depth. -/
def sfuel : Schema → Nat
  | .Struct _ fs => fieldsFuel fs + 1
  | .Enum vs => variantsFuel vs + 1
  | .Primitive _ => 1
  | .Vector e => sfuel e + 1
  | .Undefined => 1
termination_by s => (sizeOf s, 1)
decreasing_by all_goals (simp_wf; omega)

/-- `sfuel` over a field list (max of the field schemas). -/
def fieldsFuel : List Field → Nat
  | [] => 0
  | (_, s) :: fs => max (sfuel s) (fieldsFuel fs)
termination_by fs => (sizeOf fs, 0)
decreasing_by all_goals (simp_wf; omega)

/-- `sfuel` over a variant list. -/
def variantsFuel : List Variant → Nat
  | [] => 0
  | (_, _, f) :: vs => max (fieldsFuel f) (variantsFuel vs)
termination_by vs => (sizeOf vs, 0)
decreasing_by all_goals (simp_wf; omega)

end

/-! ## The Serialize/Deserialize contract

The trait triple `WithSchema` / `Serialize` / `Deserialize` for one type,
as explicit data.  `ser` receives the serializer's version, `deser` the
deserializer's `file_version` (the only two session fields any embedded
implementation reads).  `valid` is the Rust type invariant of `α`
(value ranges, length bounds, UTF-8). -/
structure Codec (α : Type) where
  valid : α → Prop
  schema : Nat → Schema
  ser : Nat → α → List Nat
  deser : Nat → List Nat → SResult α × List Nat

/-! ### Integer and string codecs -/

/-- Signed read of `k` bytes (`read_i8/i16/i32/i64/isize`). -/
def readISt (k : Nat) (l : List Nat) : SResult Int × List Nat :=
  match readNSt k l with
  | (.ok b, r) => (.ok (intDecode (8 * k) (decodeLE b)), r)
  | (.err e, r) => (.err e, r)
  | (.fatal p, r) => (.fatal p, r)

/-- `u8`. -/
def u8Codec : Codec Nat :=
  { valid := fun x => x < 2 ^ 8
    schema := fun _ => .Primitive .schema_u8
    ser := fun _ x => leBytes 1 x
    deser := fun _ => readU8St }

/-- `u16`. -/
def u16Codec : Codec Nat :=
  { valid := fun x => x < 2 ^ 16
    schema := fun _ => .Primitive .schema_u16
    ser := fun _ x => leBytes 2 x
    deser := fun _ => readU16St }

/-- `u32`. -/
def u32Codec : Codec Nat :=
  { valid := fun x => x < 2 ^ 32
    schema := fun _ => .Primitive .schema_u32
    ser := fun _ x => leBytes 4 x
    deser := fun _ => readU32St }

/-- `u64`. -/
def u64Codec : Codec Nat :=
  { valid := fun x => x < 2 ^ 64
    schema := fun _ => .Primitive .schema_u64
    ser := fun _ x => leBytes 8 x
    deser := fun _ => readU64St }

/-- `usize` (crosses the wire as `u64`). -/
def usizeCodec : Codec Nat :=
  { valid := fun x => x < 2 ^ 64
    schema := fun _ => .Primitive .schema_usize
    ser := fun _ x => leBytes 8 x
    deser := fun _ => readU64St }

/-- `i8`. -/
def i8Codec : Codec Int :=
  { valid := fun x => -(2 ^ 7 : Nat) ≤ x ∧ x < (2 ^ 7 : Nat)
    schema := fun _ => .Primitive .schema_i8
    ser := fun _ x => leBytes 1 (intEncode 8 x)
    deser := fun _ => readISt 1 }

/-- `i16`. -/
def i16Codec : Codec Int :=
  { valid := fun x => -(2 ^ 15 : Nat) ≤ x ∧ x < (2 ^ 15 : Nat)
    schema := fun _ => .Primitive .schema_i16
    ser := fun _ x => leBytes 2 (intEncode 16 x)
    deser := fun _ => readISt 2 }

/-- `i32`. -/
def i32Codec : Codec Int :=
  { valid := fun x => -(2 ^ 31 : Nat) ≤ x ∧ x < (2 ^ 31 : Nat)
    schema := fun _ => .Primitive .schema_i32
    ser := fun _ x => leBytes 4 (intEncode 32 x)
    deser := fun _ => readISt 4 }

/-- `i64`. -/
def i64Codec : Codec Int :=
  { valid := fun x => -(2 ^ 63 : Nat) ≤ x ∧ x < (2 ^ 63 : Nat)
    schema := fun _ => .Primitive .schema_i64
    ser := fun _ x => leBytes 8 (intEncode 64 x)
    deser := fun _ => readISt 8 }

/-- `isize` (crosses the wire as `i64`). -/
def isizeCodec : Codec Int :=
  { valid := fun x => -(2 ^ 63 : Nat) ≤ x ∧ x < (2 ^ 63 : Nat)
    schema := fun _ => .Primitive .schema_isize
    ser := fun _ x => leBytes 8 (intEncode 64 x)
    deser := fun _ => readISt 8 }

/-- `String`: a validated UTF-8 byte buffer; wire format `len:u64` + bytes. -/
def stringCodec : Codec (List Nat) :=
  { valid := fun s => utf8Valid s = true ∧ s.length < 2 ^ 64
    schema := fun _ => .Primitive .schema_string
    ser := fun _ s => serStr s
    deser := fun _ => readStringSt }

/-! ### Vec codecs: the general path and the `ReprC` fast path -/

/-- `regular_serialize_vec`: length prefix, then each element in order. -/
def regular_serialize_vec (c : Codec α) (v : Nat) (xs : List α) : List Nat :=
  u64le xs.length ++ (xs.map (c.ser v)).flatten

/-- The `for _ in 0..l` loop of `regular_deserialize_vec`. -/
def regularVecLoop (c : Codec α) (v : Nat) : Nat → List Nat → SResult (List α) × List Nat
  | 0, l => (.ok [], l)
  | n + 1, l =>
    match c.deser v l with
    | (.ok x, r) =>
      match regularVecLoop c v n r with
      | (.ok xs, r1) => (.ok (x :: xs), r1)
      | (.err e, r1) => (.err e, r1)
      | (.fatal p, r1) => (.fatal p, r1)
    | (.err e, r) => (.err e, r)
    | (.fatal p, r) => (.fatal p, r)

/-- `regular_deserialize_vec`: read the length, then that many elements. -/
def regular_deserialize_vec (c : Codec α) (v : Nat) (l : List Nat) :
    SResult (List α) × List Nat :=
  match readU64St l with
  | (.ok n, r) => regularVecLoop c v n r
  | (.err e, r) => (.err e, r)
  | (.fatal p, r) => (.fatal p, r)

/-- Validity of a `Vec<T>` value: its length fits `usize` and every element
is valid. -/
def vecValid (c : Codec α) (xs : List α) : Prop :=
  xs.length < 2 ^ 64 ∧ ∀ x ∈ xs, c.valid x

/-- `Vec<T>` through the default (non-`ReprC`) impls: the general path both
ways. -/
def vecCodec (c : Codec α) : Codec (List α) :=
  { valid := vecValid c
    schema := fun v => .Vector (c.schema v)
    ser := regular_serialize_vec c
    deser := regular_deserialize_vec c }

/-- The `ReprC` capability of an element type.  `repr_c_optimization_safe`
is from the source; `size_of`, `memBytes` and `memDecode` are modelled from
the spec: the in-memory byte layout of a `ReprC` element on the
little-endian 64-bit platform the format assumes (`mem::size_of`, the bytes
behind `as_ptr`, and the reinterpretation done by `Vec::from_raw_parts`). -/
structure ReprC (α : Type) where
  repr_c_optimization_safe : Nat → Bool
  size_of : Nat
  memBytes : α → List Nat
  memDecode : List Nat → α

/-- Reinterpreting a raw buffer as `n` elements of size `size_of`
(`Vec::from_raw_parts` on the fast-path buffer). -/
def chunksDecode (r : ReprC α) : Nat → List Nat → List α
  | 0, _ => []
  | n + 1, buf => r.memDecode (buf.take r.size_of) :: chunksDecode r n (buf.drop r.size_of)

/-- `Vec<T: ReprC>`: the specialized impls, gated at run time on
`repr_c_optimization_safe` (serializer version on write, `file_version` on
read).  The fast path writes the length then one contiguous raw copy; on
read it reads `size_of * len` bytes in one call and reinterprets.
(The model's allocation always succeeds: `Layout::from_size_align` and
`alloc` failures are environmental and outside the byte-level model.) -/
def vecReprCCodec (c : Codec α) (r : ReprC α) : Codec (List α) :=
  { valid := vecValid c
    schema := fun v => .Vector (c.schema v)
    ser := fun v xs =>
      if r.repr_c_optimization_safe v then
        u64le xs.length ++ (xs.map r.memBytes).flatten
      else regular_serialize_vec c v xs
    deser := fun v l =>
      if r.repr_c_optimization_safe v then
        match readU64St l with
        | (.ok n, r1) =>
          match readNSt (r.size_of * n) r1 with
          | (.ok buf, r2) => (.ok (chunksDecode r n buf), r2)
          | (.err e, r2) => (.err e, r2)
          | (.fatal p, r2) => (.fatal p, r2)
        | (.err e, r1) => (.err e, r1)
        | (.fatal p, r1) => (.fatal p, r1)
      else regular_deserialize_vec c v l }

/-! ### The `ReprC` impls of the ten integer primitives

All return `true` at every version; sizes and layouts are the little-endian
bit images (which is what the general path writes too). -/

/-- `ReprC for u8`. -/
def u8ReprC : ReprC Nat :=
  { repr_c_optimization_safe := fun _ => true, size_of := 1
    memBytes := leBytes 1, memDecode := decodeLE }

/-- `ReprC for u16`. -/
def u16ReprC : ReprC Nat :=
  { repr_c_optimization_safe := fun _ => true, size_of := 2
    memBytes := leBytes 2, memDecode := decodeLE }

/-- `ReprC for u32`. -/
def u32ReprC : ReprC Nat :=
  { repr_c_optimization_safe := fun _ => true, size_of := 4
    memBytes := leBytes 4, memDecode := decodeLE }

/-- `ReprC for u64`. -/
def u64ReprC : ReprC Nat :=
  { repr_c_optimization_safe := fun _ => true, size_of := 8
    memBytes := leBytes 8, memDecode := decodeLE }

/-- `ReprC for usize`. -/
def usizeReprC : ReprC Nat :=
  { repr_c_optimization_safe := fun _ => true, size_of := 8
    memBytes := leBytes 8, memDecode := decodeLE }

/-- `ReprC for i8`. -/
def i8ReprC : ReprC Int :=
  { repr_c_optimization_safe := fun _ => true, size_of := 1
    memBytes := fun x => leBytes 1 (intEncode 8 x)
    memDecode := fun b => intDecode 8 (decodeLE b) }

/-- `ReprC for i16`. -/
def i16ReprC : ReprC Int :=
  { repr_c_optimization_safe := fun _ => true, size_of := 2
    memBytes := fun x => leBytes 2 (intEncode 16 x)
    memDecode := fun b => intDecode 16 (decodeLE b) }

/-- `ReprC for i32`. -/
def i32ReprC : ReprC Int :=
  { repr_c_optimization_safe := fun _ => true, size_of := 4
    memBytes := fun x => leBytes 4 (intEncode 32 x)
    memDecode := fun b => intDecode 32 (decodeLE b) }

/-- `ReprC for i64`. -/
def i64ReprC : ReprC Int :=
  { repr_c_optimization_safe := fun _ => true, size_of := 8
    memBytes := fun x => leBytes 8 (intEncode 64 x)
    memDecode := fun b => intDecode 64 (decodeLE b) }

/-- `ReprC for isize`. -/
def isizeReprC : ReprC Int :=
  { repr_c_optimization_safe := fun _ => true, size_of := 8
    memBytes := fun x => leBytes 8 (intEncode 64 x)
    memDecode := fun b => intDecode 64 (decodeLE b) }

/-! ### HashMap codec -/

/-- A `HashMap<K, V>` value: its entries, with the map invariant that keys
are distinct.  (Iteration order is whatever the entry list's order is.) -/
def HMap (K V : Type) := { l : List (K × V) // (l.map Prod.fst).Nodup }

/-- The empty map (`HashMap::with_capacity`; capacity is immaterial). -/
def HMap.empty (K V : Type) : HMap K V := ⟨[], List.nodup_nil⟩

/-- `HashMap::insert`: replace the value under an existing key (the stored
key is not replaced), otherwise add a new entry. -/
def HMap.insert [DecidableEq K] (m : HMap K V) (k : K) (v : V) : HMap K V :=
  if h : k ∈ m.val.map Prod.fst then
    ⟨m.val.map fun p => if p.1 = k then (p.1, v) else p, by
      have : (m.val.map fun p => if p.1 = k then (p.1, v) else p).map Prod.fst
          = m.val.map Prod.fst := by
        rw [List.map_map]
        refine List.map_congr_left ?_
        intro p _
        by_cases hp : p.1 = k <;> simp [hp]
      rw [this]; exact m.property⟩
  else
    ⟨m.val ++ [(k, v)], by
      rw [List.map_append]
      refine List.Nodup.append m.property (List.nodup_singleton k) ?_
      intro a ha hb
      simp only [List.map_cons, List.map_nil, List.mem_singleton] at hb
      exact h (hb ▸ ha)⟩

/-- Lookup by key equality (what `HashMap` observable equality is built on). -/
def HMap.lookup [DecidableEq K] (m : HMap K V) (k : K) : Option V :=
  (m.val.find? fun p => decide (p.1 = k)).map Prod.snd

/-- "KeyValuePair" as UTF-8 bytes. -/
def kvPairName : List Nat := [75, 101, 121, 86, 97, 108, 117, 101, 80, 97, 105, 114]

/-- "key" as UTF-8 bytes. -/
def keyName : List Nat := [107, 101, 121]

/-- "value" as UTF-8 bytes. -/
def valueName : List Nat := [118, 97, 108, 117, 101]

/-- The `for _ in 0..l { ret.insert(K::deserialize(..)?, V::deserialize(..)?) }`
loop of `Deserialize for HashMap`. -/
def hmapLoop [DecidableEq K] (kc : Codec K) (vc : Codec V) (v : Nat) :
    Nat → HMap K V → List Nat → SResult (HMap K V) × List Nat
  | 0, m, l => (.ok m, l)
  | n + 1, m, l =>
    match kc.deser v l with
    | (.ok k, r) =>
      match vc.deser v r with
      | (.ok w, r1) => hmapLoop kc vc v n (m.insert k w) r1
      | (.err e, r1) => (.err e, r1)
      | (.fatal p, r1) => (.fatal p, r1)
    | (.err e, r) => (.err e, r)
    | (.fatal p, r) => (.fatal p, r)

/-- `HashMap<K, V>`: schema (a vector of "KeyValuePair" structs), serializer
(length prefix, then each `{K, V}` pair in iteration order) and deserializer
(length prefix, then inserting each pair in wire order into a fresh map). -/
def hmapCodec [DecidableEq K] (kc : Codec K) (vc : Codec V) : Codec (HMap K V) :=
  { valid := fun m => m.val.length < 2 ^ 64 ∧ ∀ p ∈ m.val, kc.valid p.1 ∧ vc.valid p.2
    schema := fun v =>
      .Vector (.Struct kvPairName [(keyName, kc.schema v), (valueName, vc.schema v)])
    ser := fun v m =>
      u64le m.val.length ++ (m.val.map fun p => kc.ser v p.1 ++ vc.ser v p.2).flatten
    deser := fun v l =>
      match readU64St l with
      | (.ok n, r) => hmapLoop kc vc v n (HMap.empty K V) r
      | (.err e, r) => (.err e, r)
      | (.fatal p, r) => (.fatal p, r) }

/-! ### The removed-field placeholder -/

/-- `Removed<T>`: a value-less phantom. -/
structure Removed (α : Type) where

/-- `Removed::new`. -/
def Removed.new (α : Type) : Removed α := ⟨⟩

/-- `Serialize for Removed<T>`: unconditionally `panic!` — there is no byte
output and no sink interaction at all. -/
def removedSerialize (α : Type) (_version : Nat) (_x : Removed α) : SResult (List Nat) :=
  .fatal .removedFieldSerialized

/-- `Deserialize for Removed<T>`: deserialize and discard a `T`, then yield
the placeholder. -/
def removedDeserialize (c : Codec α) (v : Nat) (l : List Nat) :
    SResult (Removed α) × List Nat :=
  match c.deser v l with
  | (.ok _, r) => (.ok ⟨⟩, r)
  | (.err e, r) => (.err e, r)
  | (.fatal p, r) => (.fatal p, r)

/-! ## The session drivers -/

/-- The path literal `"."` passed by `load_impl` to `diff_schema`. -/
def pathDot : List Nat := [46]

/-- `Serializer::save_impl` over a pure (never-failing) sink: version as
`u32`, then (optionally) the schema at that version through a raw
sub-serializer, then the value at that version.  The byte image. -/
def save_impl (c : Codec α) (version : Nat) (x : α) (with_schema : Bool) : List Nat :=
  u32le version ++ (if with_schema then serSchema (c.schema version) else []) ++ c.ser version x

/-- `Deserializer::load_impl`: read the file version; panic if it exceeds
the memory version; optionally read the stored schema and diff it against
`T::schema(file_version)`; then deserialize the value with
`file_version` in effect. -/
def load_impl (c : Codec α) (version : Nat) (fetch_schema : Bool) (l : List Nat) :
    SResult α × List Nat :=
  match readU32St l with
  | (.ok file_ver, r) =>
    if file_ver > version then (.fatal (.newerFileVersion file_ver version), r)
    else if fetch_schema then
      match Schema.deserialize r with
      | (.ok file_schema, r1) =>
        match diff_schema file_schema (c.schema file_ver) pathDot with
        | some _ => (.err .incompatibleSchema, r1)
        | none => c.deser file_ver r1
      | (.err e, r1) => (.err e, r1)
      | (.fatal p, r1) => (.fatal p, r1)
    else c.deser file_ver r
  | (.err e, r) => (.err e, r)
  | (.fatal p, r) => (.fatal p, r)

/-! ## A failing sink (for error-propagation claims)

`save_impl` is also modelled over a sink of bounded capacity: the underlying
writer accepts `cap` bytes and then every further write fails with an I/O
error, which is how an arbitrary failing `Write` manifests at the byte
level. -/

/-- `write_all` against the bounded sink: consume capacity or fail. -/
def writeAll (bytes : List Nat) (cap : Nat) : SResult Unit × Nat :=
  if bytes.length ≤ cap then (.ok (), cap - bytes.length) else (.err .ioError, cap)

/-- `save_impl` against the bounded sink.  The version write's result is
`.unwrap()`ed in the source — a failure there is a panic, not a returned
error; the schema and value writes propagate failures with `?`. -/
def save_impl_sink (c : Codec α) (cap : Nat) (version : Nat) (x : α)
    (with_schema : Bool) : SResult Unit × Nat :=
  match writeAll (u32le version) cap with
  | (.ok _, cap1) =>
    match (if with_schema then writeAll (serSchema (c.schema version)) cap1
           else (.ok (), cap1)) with
    | (.ok _, cap2) => writeAll (c.ser version x) cap2
    | (.err e, cap2) => (.err e, cap2)
    | (.fatal p, cap2) => (.fatal p, cap2)
  | (.err _, cap1) => (.fatal .unwrapFailedOnVersionWrite, cap1)
  | (.fatal p, cap1) => (.fatal p, cap1)

/-! ## The schema meta-types' own schemas

`WithSchema` impls for `Field`, `Variant`, `SchemaStruct`, `SchemaEnum`,
`SchemaPrimitive` and `Schema` all return `Undefined`: the schema header is
written at a meta-level that does not describe itself. -/

/-- `WithSchema for Field`. -/
def fieldSchemaFn (_version : Nat) : Schema := Schema.Undefined

/-- `WithSchema for Variant`. -/
def variantSchemaFn (_version : Nat) : Schema := Schema.Undefined

/-- `WithSchema for SchemaStruct`. -/
def schemaStructSchemaFn (_version : Nat) : Schema := Schema.Undefined

/-- `WithSchema for SchemaEnum`. -/
def schemaEnumSchemaFn (_version : Nat) : Schema := Schema.Undefined

/-- `WithSchema for SchemaPrimitive`. -/
def schemaPrimitiveSchemaFn (_version : Nat) : Schema := Schema.Undefined

/-- `WithSchema for Schema`. -/
def schemaSchemaFn (_version : Nat) : Schema := Schema.Undefined

/-- The round-trip property of one codec: saving any valid value at any
`u32` version with the schema enabled, then loading from those bytes with
the same memory version, succeeds and returns the value, consuming exactly
the saved bytes. -/
def RoundTrips (c : Codec α) : Prop :=
  ∀ v x rest, v < 2 ^ 32 → c.valid x →
    load_impl c v true (save_impl c v x true ++ rest) = (.ok x, rest)

/-! ## Byte-level lemmas -/

theorem leBytes_length (k n : Nat) : (leBytes k n).length = k := by
  induction k generalizing n with
  | zero => rfl
  | succ k ih => simp [leBytes, ih]

theorem decodeLE_leBytes (k n : Nat) : decodeLE (leBytes k n) = n % 256 ^ k := by
  induction k generalizing n with
  | zero => simp [leBytes, decodeLE, Nat.mod_one]
  | succ k ih =>
    have hsplit : n % (256 * 256 ^ k) = n % 256 + 256 * (n / 256 % 256 ^ k) :=
      Nat.mod_mul ..
    simp [leBytes, decodeLE, ih, pow_succ]
    rw [mul_comm (256 ^ k) 256, hsplit]

theorem readNSt_exact (xs r : List Nat) : readNSt xs.length (xs ++ r) = (.ok xs, r) := by
  simp [readNSt, List.take_left, List.drop_left]

theorem readNSt_leBytes (k n : Nat) (r : List Nat) :
    readNSt k (leBytes k n ++ r) = (.ok (leBytes k n), r) := by
  have h := readNSt_exact (leBytes k n) r
  rwa [leBytes_length] at h

theorem readU8St_leBytes (n : Nat) (r : List Nat) :
    readU8St (leBytes 1 n ++ r) = (.ok (n % 2 ^ 8), r) := by
  rw [readU8St, readNSt_leBytes]
  simp only [decodeLE_leBytes]
  norm_num

theorem readU16St_leBytes (n : Nat) (r : List Nat) :
    readU16St (leBytes 2 n ++ r) = (.ok (n % 2 ^ 16), r) := by
  rw [readU16St, readNSt_leBytes]
  simp only [decodeLE_leBytes]
  norm_num

theorem readU32St_leBytes (n : Nat) (r : List Nat) :
    readU32St (leBytes 4 n ++ r) = (.ok (n % 2 ^ 32), r) := by
  rw [readU32St, readNSt_leBytes]
  simp only [decodeLE_leBytes]
  norm_num

theorem readU64St_leBytes (n : Nat) (r : List Nat) :
    readU64St (leBytes 8 n ++ r) = (.ok (n % 2 ^ 64), r) := by
  rw [readU64St, readNSt_leBytes]
  simp only [decodeLE_leBytes]
  norm_num

theorem readStringSt_serStr (s : List Nat) (hv : utf8Valid s = true)
    (hl : s.length < 2 ^ 64) (r : List Nat) : readStringSt (serStr s ++ r) = (.ok s, r) := by
  rw [readStringSt, serStr, u64le, List.append_assoc, readU64St_leBytes,
    Nat.mod_eq_of_lt hl]
  simp [readNSt_exact, hv]

theorem intEncode_lt (w : Nat) (x : Int) : intEncode w x < 2 ^ w := by
  rw [intEncode]
  have hpos : (0 : Int) < ((2 ^ w : Nat) : Int) := by positivity
  have h1 := Int.emod_nonneg x (ne_of_gt hpos)
  have h2 := Int.emod_lt_of_pos x hpos
  omega

theorem intDecode_intEncode (w : Nat) (x : Int) (hw : 1 ≤ w)
    (h1 : -((2 : Int) ^ (w - 1)) ≤ x) (h2 : x < (2 : Int) ^ (w - 1)) :
    intDecode w (intEncode w x) = x := by
  have hM : ((2 ^ w : Nat) : Int) = 2 * (2 : Int) ^ (w - 1) := by
    have hw1 : w = (w - 1) + 1 := by omega
    calc ((2 ^ w : Nat) : Int) = ((2 ^ ((w - 1) + 1) : Nat) : Int) := by rw [← hw1]
      _ = 2 * (2 : Int) ^ (w - 1) := by push_cast [pow_succ]; ring
  have hhalf : ((2 ^ (w - 1) : Nat) : Int) = (2 : Int) ^ (w - 1) := by push_cast; ring
  rw [intDecode, intEncode]
  set M : Int := ((2 ^ w : Nat) : Int) with hMdef
  have hMpos : (0 : Int) < M := by positivity
  have hmod1 := Int.emod_nonneg x (ne_of_gt hMpos)
  have hmod2 := Int.emod_lt_of_pos x hMpos
  rcases le_or_lt 0 x with hx | hx
  · have : x % M = x := Int.emod_eq_of_lt hx (by omega)
    rw [this]
    have hlt : x.toNat < 2 ^ (w - 1) := by omega
    simp only [if_pos hlt]
    omega
  · have hxM : x % M = x + M := by
      have h1' : 0 ≤ x + M := by omega
      have h2' : x + M < M := by omega
      have h0 : (x + M) % M = x + M := Int.emod_eq_of_lt h1' h2'
      have h3 : (x + M) % M = x % M := by
        have h4 : (x + M * 1) % M = x % M := Int.add_mul_emod_self_left x M 1
        rw [mul_one] at h4
        exact h4
      rw [← h3, h0]
    rw [hxM]
    have hge : ¬ ((x + M).toNat < 2 ^ (w - 1)) := by omega
    simp only [if_neg hge]
    omega

attribute [irreducible] intDecode

theorem readISt_leBytes (k : Nat) (x : Int) (r : List Nat) (hk : 1 ≤ k)
    (h1 : -((2 : Int) ^ (8 * k - 1)) ≤ x) (h2 : x < (2 : Int) ^ (8 * k - 1)) :
    readISt k (leBytes k (intEncode (8 * k) x) ++ r) = (.ok x, r) := by
  rw [readISt, readNSt_leBytes]
  simp only [decodeLE_leBytes]
  have h256 : (256 : Nat) ^ k = 2 ^ (8 * k) := by
    rw [show (256 : Nat) = 2 ^ 8 by norm_num, ← pow_mul]
  rw [h256, Nat.mod_eq_of_lt (intEncode_lt _ _),
    intDecode_intEncode (8 * k) x (by omega) h1 h2]

theorem readU16St_small (c : Nat) (hc : c < 2 ^ 16) (r : List Nat) :
    readU16St (u16le c ++ r) = (.ok c, r) := by
  rw [u16le, readU16St_leBytes, Nat.mod_eq_of_lt hc]

theorem readU32St_small (c : Nat) (hc : c < 2 ^ 32) (r : List Nat) :
    readU32St (u32le c ++ r) = (.ok c, r) := by
  rw [u32le, readU32St_leBytes, Nat.mod_eq_of_lt hc]

theorem readU64St_small (c : Nat) (hc : c < 2 ^ 64) (r : List Nat) :
    readU64St (u64le c ++ r) = (.ok c, r) := by
  rw [u64le, readU64St_leBytes, Nat.mod_eq_of_lt hc]

/-! ## Schema wire round-trip -/

theorem deserPrimitiveSt_ser (p : SchemaPrimitive) (r : List Nat) :
    deserPrimitiveSt (serPrimitive p ++ r) = (.ok p, r) := by
  cases p <;>
    simp [deserPrimitiveSt, serPrimitive, primDiscr,
      readU16St_small 1 (by norm_num), readU16St_small 2 (by norm_num), readU16St_small 3 (by norm_num), readU16St_small 4 (by norm_num), readU16St_small 5 (by norm_num), readU16St_small 6 (by norm_num), readU16St_small 7 (by norm_num), readU16St_small 8 (by norm_num), readU16St_small 9 (by norm_num), readU16St_small 10 (by norm_num), readU16St_small 11 (by norm_num)]

/-- Master round-trip: a well-formed schema serializes and re-reads exactly,
for any fuel at least its nesting depth, leaving the rest of the stream. -/
theorem schema_rt_all : ∀ N : Nat,
    (∀ s : Schema, sizeOf s ≤ N → schemaWf s = true → ∀ fuel : Nat, sfuel s ≤ fuel →
      ∀ rest : List Nat, deserSchemaF fuel (serSchema s ++ rest) = (.ok s, rest)) ∧
    (∀ fs : List Field, sizeOf fs ≤ N → wfFields fs = true → ∀ fuel : Nat,
      fieldsFuel fs ≤ fuel →
      ∀ rest : List Nat, deserFieldsF fuel fs.length (serFields fs ++ rest) = (.ok fs, rest)) ∧
    (∀ vs : List Variant, sizeOf vs ≤ N → wfVariants vs = true → ∀ fuel : Nat,
      variantsFuel vs ≤ fuel →
      ∀ rest : List Nat, deserVariantsF fuel vs.length (serVariants vs ++ rest) = (.ok vs, rest)) := by
  intro N
  induction N using Nat.strong_induction_on with
  | _ N IH =>
    refine ⟨?_, ?_, ?_⟩
    · intro s hs hwf fuel hfuel rest
      cases s with
      | Struct dbg fs =>
        rw [sfuel] at hfuel
        obtain ⟨f, rfl⟩ : ∃ f, fuel = f + 1 := ⟨fuel - 1, by omega⟩
        rw [schemaWf] at hwf
        simp only [Bool.and_eq_true, decide_eq_true_eq] at hwf
        obtain ⟨⟨⟨hutf, hdlen⟩, hflen⟩, hfwf⟩ := hwf
        have hszfs : sizeOf fs < N := by
          have : sizeOf fs < sizeOf (Schema.Struct dbg fs) := by first | (simp; omega) | simp
          omega
        have hrt := (IH (sizeOf fs) hszfs).2.1 fs le_rfl hfwf f (by omega)
        simp only [serSchema, List.append_assoc, deserSchemaF,
          readU16St_small 1 (by norm_num), readStringSt_serStr dbg hutf hdlen,
          readU64St_small fs.length hflen, hrt]
      | Enum vs =>
        rw [sfuel] at hfuel
        obtain ⟨f, rfl⟩ : ∃ f, fuel = f + 1 := ⟨fuel - 1, by omega⟩
        rw [schemaWf] at hwf
        simp only [Bool.and_eq_true, decide_eq_true_eq] at hwf
        obtain ⟨hvlen, hvwf⟩ := hwf
        have hszvs : sizeOf vs < N := by
          have : sizeOf vs < sizeOf (Schema.Enum vs) := by first | (simp; omega) | simp
          omega
        have hrt := (IH (sizeOf vs) hszvs).2.2 vs le_rfl hvwf f (by omega)
        simp only [serSchema, List.append_assoc, deserSchemaF,
          readU16St_small 2 (by norm_num), readU64St_small vs.length hvlen, hrt]
      | Primitive p =>
        rw [sfuel] at hfuel
        obtain ⟨f, rfl⟩ : ∃ f, fuel = f + 1 := ⟨fuel - 1, by omega⟩
        simp only [serSchema, List.append_assoc, deserSchemaF,
          readU16St_small 3 (by norm_num), deserPrimitiveSt_ser]
      | Vector e =>
        rw [sfuel] at hfuel
        obtain ⟨f, rfl⟩ : ∃ f, fuel = f + 1 := ⟨fuel - 1, by omega⟩
        rw [schemaWf] at hwf
        have hsze : sizeOf e < N := by
          have : sizeOf e < sizeOf (Schema.Vector e) := by first | (simp; omega) | simp
          omega
        have hrt := (IH (sizeOf e) hsze).1 e le_rfl hwf f (by omega)
        simp only [serSchema, List.append_assoc, deserSchemaF,
          readU16St_small 4 (by norm_num), hrt]
      | Undefined =>
        rw [sfuel] at hfuel
        obtain ⟨f, rfl⟩ : ∃ f, fuel = f + 1 := ⟨fuel - 1, by omega⟩
        simp only [serSchema, List.append_assoc, deserSchemaF,
          readU16St_small 5 (by norm_num)]
    · intro fs hs hwf fuel hfuel rest
      cases fs with
      | nil => simp [serFields, deserFieldsF]
      | cons fd fs' =>
        obtain ⟨n, s⟩ := fd
        rw [wfFields] at hwf
        simp only [Bool.and_eq_true, decide_eq_true_eq] at hwf
        obtain ⟨⟨⟨hutf, hnlen⟩, hswf⟩, hfwf⟩ := hwf
        rw [fieldsFuel] at hfuel
        have hszs : sizeOf s < N := by
          have : sizeOf s < sizeOf ((n, s) :: fs') := by first | (simp; omega) | simp
          omega
        have hszfs : sizeOf fs' < N := by
          have : sizeOf fs' < sizeOf ((n, s) :: fs') := by first | (simp; omega) | simp
          omega
        have hrts := (IH (sizeOf s) hszs).1 s le_rfl hswf fuel (by omega)
        have hrtf := (IH (sizeOf fs') hszfs).2.1 fs' le_rfl hfwf fuel (by omega)
        simp only [serFields, List.append_assoc, List.length_cons, deserFieldsF,
          readStringSt_serStr n hutf hnlen, hrts, hrtf]
    · intro vs hs hwf fuel hfuel rest
      cases vs with
      | nil => simp [serVariants, deserVariantsF]
      | cons vr vs' =>
        obtain ⟨n, d, f⟩ := vr
        rw [wfVariants] at hwf
        simp only [Bool.and_eq_true, decide_eq_true_eq] at hwf
        obtain ⟨⟨⟨⟨⟨hutf, hnlen⟩, hd⟩, hflen⟩, hfwf⟩, hvwf⟩ := hwf
        rw [variantsFuel] at hfuel
        have hszf : sizeOf f < N := by
          have : sizeOf f < sizeOf ((n, d, f) :: vs') := by first | (simp; omega) | simp
          omega
        have hszvs : sizeOf vs' < N := by
          have : sizeOf vs' < sizeOf ((n, d, f) :: vs') := by first | (simp; omega) | simp
          omega
        have hrtf := (IH (sizeOf f) hszf).2.1 f le_rfl hfwf fuel (by omega)
        have hrtv := (IH (sizeOf vs') hszvs).2.2 vs' le_rfl hvwf fuel (by omega)
        simp only [serVariants, List.append_assoc, List.length_cons, deserVariantsF,
          readStringSt_serStr n hutf hnlen, readU16St_small d hd,
          readU64St_small f.length hflen, hrtf, hrtv]

/-- Round-trip via `deserSchemaF` at any sufficient fuel. -/
theorem deserSchemaF_serSchema (s : Schema) (hwf : schemaWf s = true) (fuel : Nat)
    (hfuel : sfuel s ≤ fuel) (rest : List Nat) :
    deserSchemaF fuel (serSchema s ++ rest) = (.ok s, rest) :=
  (schema_rt_all (sizeOf s)).1 s le_rfl hwf fuel hfuel rest

/-- The fuel bound: a serialized schema is at least as long as its depth. -/
theorem sfuel_le_serSchema_length : ∀ N : Nat,
    (∀ s : Schema, sizeOf s ≤ N → sfuel s ≤ (serSchema s).length) ∧
    (∀ fs : List Field, sizeOf fs ≤ N → fieldsFuel fs ≤ (serFields fs).length) ∧
    (∀ vs : List Variant, sizeOf vs ≤ N → variantsFuel vs ≤ (serVariants vs).length) := by
  intro N
  induction N using Nat.strong_induction_on with
  | _ N IH =>
    refine ⟨?_, ?_, ?_⟩
    · intro s hs
      cases s with
      | Struct dbg fs =>
        have hszfs : sizeOf fs < N := by
          have : sizeOf fs < sizeOf (Schema.Struct dbg fs) := by first | (simp; omega) | simp
          omega
        have h := (IH (sizeOf fs) hszfs).2.1 fs le_rfl
        rw [sfuel, serSchema]
        simp [u16le, u64le, serStr, leBytes_length]
        omega
      | Enum vs =>
        have hszvs : sizeOf vs < N := by
          have : sizeOf vs < sizeOf (Schema.Enum vs) := by first | (simp; omega) | simp
          omega
        have h := (IH (sizeOf vs) hszvs).2.2 vs le_rfl
        rw [sfuel, serSchema]
        simp [u16le, u64le, leBytes_length]
        omega
      | Primitive p =>
        rw [sfuel, serSchema]
        simp [u16le, serPrimitive, leBytes_length]
      | Vector e =>
        have hsze : sizeOf e < N := by
          have : sizeOf e < sizeOf (Schema.Vector e) := by first | (simp; omega) | simp
          omega
        have h := (IH (sizeOf e) hsze).1 e le_rfl
        rw [sfuel, serSchema]
        simp [u16le, leBytes_length]
        omega
      | Undefined =>
        rw [sfuel, serSchema]
        simp [u16le, leBytes_length]
    · intro fs hs
      cases fs with
      | nil => rw [fieldsFuel]; omega
      | cons fd fs' =>
        obtain ⟨n, s⟩ := fd
        have hszs : sizeOf s < N := by
          have : sizeOf s < sizeOf ((n, s) :: fs') := by first | (simp; omega) | simp
          omega
        have hszfs : sizeOf fs' < N := by
          have : sizeOf fs' < sizeOf ((n, s) :: fs') := by first | (simp; omega) | simp
          omega
        have h1 := (IH (sizeOf s) hszs).1 s le_rfl
        have h2 := (IH (sizeOf fs') hszfs).2.1 fs' le_rfl
        rw [fieldsFuel, serFields]
        simp [serStr, u64le, leBytes_length]
        omega
    · intro vs hs
      cases vs with
      | nil => rw [variantsFuel]; omega
      | cons vr vs' =>
        obtain ⟨n, d, f⟩ := vr
        have hszf : sizeOf f < N := by
          have : sizeOf f < sizeOf ((n, d, f) :: vs') := by first | (simp; omega) | simp
          omega
        have hszvs : sizeOf vs' < N := by
          have : sizeOf vs' < sizeOf ((n, d, f) :: vs') := by first | (simp; omega) | simp
          omega
        have h1 := (IH (sizeOf f) hszf).2.1 f le_rfl
        have h2 := (IH (sizeOf vs') hszvs).2.2 vs' le_rfl
        rw [variantsFuel, serVariants]
        simp [serStr, u16le, u64le, leBytes_length]
        omega

/-- `Schema::deserialize` inverts `Schema::serialize` on any well-formed
schema, leaving the rest of the stream untouched. -/
theorem Schema.deserialize_serSchema (s : Schema) (hwf : schemaWf s = true)
    (rest : List Nat) :
    Schema.deserialize (serSchema s ++ rest) = (.ok s, rest) := by
  rw [Schema.deserialize]
  refine deserSchemaF_serSchema s hwf _ ?_ rest
  have h := (sfuel_le_serSchema_length (sizeOf s)).1 s le_rfl
  simp [List.length_append]
  omega

/-! ## What `diff_schema` decides -/

theorem fieldsCompat_length : ∀ fa fb : List Field,
    fieldsCompat fa fb = true → fa.length = fb.length := by
  intro fa
  induction fa with
  | nil => intro fb h; cases fb with
    | nil => rfl
    | cons fd fb' => simp [fieldsCompat] at h
  | cons fd fa' ih =>
    intro fb h
    cases fb with
    | nil =>
      obtain ⟨n, s⟩ := fd
      simp [fieldsCompat] at h
    | cons gd fb' =>
      obtain ⟨n1, s1⟩ := fd
      obtain ⟨n2, s2⟩ := gd
      rw [fieldsCompat] at h
      simp only [Bool.and_eq_true] at h
      simp [ih fb' h.2]

theorem variantsCompat_length : ∀ va vb : List Variant,
    variantsCompat va vb = true → va.length = vb.length := by
  intro va
  induction va with
  | nil => intro vb h; cases vb with
    | nil => rfl
    | cons vd vb' => simp [variantsCompat] at h
  | cons vd va' ih =>
    intro vb h
    cases vb with
    | nil =>
      obtain ⟨n, d, f⟩ := vd
      simp [variantsCompat] at h
    | cons wd vb' =>
      obtain ⟨n1, d1, f1⟩ := vd
      obtain ⟨n2, d2, f2⟩ := wd
      rw [variantsCompat] at h
      simp only [Bool.and_eq_true] at h
      simp [ih vb' h.2]

/-- Master characterization: the diff walk reports no difference exactly on
`schemaCompat` pairs. -/
theorem diff_none_iff_all : ∀ N : Nat,
    (∀ a : Schema, sizeOf a ≤ N → ∀ b path,
      (diff_schema a b path = none ↔ schemaCompat a b = true)) ∧
    (∀ fa : List Field, sizeOf fa ≤ N → ∀ fb i path st ea eb, fa.length = fb.length →
      (diff_fields_walk i fa fb path st ea eb = none ↔ fieldsCompat fa fb = true)) ∧
    (∀ va : List Variant, sizeOf va ≤ N → ∀ vb i path, va.length = vb.length →
      (diff_variants_walk i va vb path = none ↔ variantsCompat va vb = true)) := by
  intro N
  induction N using Nat.strong_induction_on with
  | _ N IH =>
    refine ⟨?_, ?_, ?_⟩
    · intro a ha b path
      cases a with
      | Struct na fa =>
        cases b with
        | Struct nb fb =>
          rw [diff_schema, diff_struct, diff_fields, schemaCompat]
          by_cases hlen : fa.length = fb.length
          · have hszfa : sizeOf fa < N := by
              have : sizeOf fa < sizeOf (Schema.Struct na fa) := by
                first | (simp; omega) | simp
              omega
            simp only [if_neg (by simp [hlen] : ¬ fa.length ≠ fb.length)]
            exact (IH (sizeOf fa) hszfa).2.1 fa le_rfl fb 0 path "struct" na nb hlen
          · rw [if_pos (by simpa using hlen)]
            constructor
            · intro h; exact absurd h (by simp)
            · intro h; exact absurd (fieldsCompat_length fa fb h) hlen
        | Enum vb => simp [diff_schema, schemaCompat]
        | Primitive pb => simp [diff_schema, schemaCompat]
        | Vector eb => simp [diff_schema, schemaCompat]
        | Undefined => simp [diff_schema, schemaCompat]
      | Enum va =>
        cases b with
        | Struct nb fb => simp [diff_schema, schemaCompat]
        | Enum vb =>
          rw [diff_schema, diff_enum, schemaCompat]
          by_cases hlen : va.length = vb.length
          · have hszva : sizeOf va < N := by
              have : sizeOf va < sizeOf (Schema.Enum va) := by
                first | (simp; omega) | simp
              omega
            simp only [if_neg (by simp [hlen] : ¬ va.length ≠ vb.length)]
            exact (IH (sizeOf va) hszva).2.2 va le_rfl vb 0 path hlen
          · rw [if_pos (by simpa using hlen)]
            constructor
            · intro h; exact absurd h (by simp)
            · intro h; exact absurd (variantsCompat_length va vb h) hlen
        | Primitive pb => simp [diff_schema, schemaCompat]
        | Vector eb => simp [diff_schema, schemaCompat]
        | Undefined => simp [diff_schema, schemaCompat]
      | Primitive pa =>
        cases b with
        | Struct nb fb => simp [diff_schema, schemaCompat]
        | Enum vb => simp [diff_schema, schemaCompat]
        | Primitive pb =>
          rw [diff_schema, diff_primitive, schemaCompat]
          by_cases hp : pa = pb
          · simp [hp]
          · simp [hp]
        | Vector eb => simp [diff_schema, schemaCompat]
        | Undefined => simp [diff_schema, schemaCompat]
      | Vector ea =>
        cases b with
        | Struct nb fb => simp [diff_schema, schemaCompat]
        | Enum vb => simp [diff_schema, schemaCompat]
        | Primitive pb => simp [diff_schema, schemaCompat]
        | Vector eb =>
          rw [diff_schema, schemaCompat]
          have hsze : sizeOf ea < N := by
            have : sizeOf ea < sizeOf (Schema.Vector ea) := by
              first | (simp; omega) | simp
            omega
          exact (IH (sizeOf ea) hsze).1 ea le_rfl eb (path ++ [47, 42])
        | Undefined => simp [diff_schema, schemaCompat]
      | Undefined =>
        cases b <;> simp [diff_schema, schemaCompat]
    · intro fa ha fb i path st ea eb hlen
      cases fa with
      | nil =>
        cases fb with
        | nil => simp [diff_fields_walk, fieldsCompat]
        | cons gd fb' => exact absurd hlen (by simp)
      | cons fd fa' =>
        cases fb with
        | nil => exact absurd hlen (by simp)
        | cons gd fb' =>
          obtain ⟨n1, s1⟩ := fd
          obtain ⟨n2, s2⟩ := gd
          rw [diff_fields_walk, fieldsCompat]
          by_cases hn : n1 = n2
          · have hszs : sizeOf s1 < N := by
              have : sizeOf s1 < sizeOf ((n1, s1) :: fa') := by
                first | (simp; omega) | simp
              omega
            have hszfa : sizeOf fa' < N := by
              have : sizeOf fa' < sizeOf ((n1, s1) :: fa') := by
                first | (simp; omega) | simp
              omega
            have ihs := (IH (sizeOf s1) hszs).1 s1 le_rfl s2 (path ++ [47] ++ n1)
            have ihf := (IH (sizeOf fa') hszfa).2.1 fa' le_rfl fb' (i + 1) path st ea eb
              (by simpa using hlen)
            rw [if_neg (by simp [hn])]
            cases hds : diff_schema s1 s2 (path ++ [47] ++ n1) with
            | some e =>
              simp only []
              constructor
              · intro h; exact absurd h (by simp)
              · intro h
                simp only [Bool.and_eq_true] at h
                have := ihs.mpr h.1.2
                rw [hds] at this
                exact absurd this (by simp)
            | none =>
              simp only []
              rw [ihf]
              have hcs : schemaCompat s1 s2 = true := ihs.mp hds
              simp [hn, hcs]
          · rw [if_pos (by simp [hn])]
            constructor
            · intro h; exact absurd h (by simp)
            · intro h
              simp only [Bool.and_eq_true, decide_eq_true_eq] at h
              exact absurd h.1.1 hn
    · intro va ha vb i path hlen
      cases va with
      | nil =>
        cases vb with
        | nil => simp [diff_variants_walk, variantsCompat]
        | cons wd vb' => exact absurd hlen (by simp)
      | cons vd va' =>
        cases vb with
        | nil => exact absurd hlen (by simp)
        | cons wd vb' =>
          obtain ⟨n1, d1, f1⟩ := vd
          obtain ⟨n2, d2, f2⟩ := wd
          rw [diff_variants_walk, variantsCompat]
          by_cases hn : n1 = n2
          · rw [if_neg (by simp [hn])]
            by_cases hd : d1 = d2
            · rw [if_neg (by simp [hd])]
              have hszf : sizeOf f1 < N := by
                have : sizeOf f1 < sizeOf ((n1, d1, f1) :: va') := by
                  first | (simp; omega) | simp
                omega
              have hszva : sizeOf va' < N := by
                have : sizeOf va' < sizeOf ((n1, d1, f1) :: va') := by
                  first | (simp; omega) | simp
                omega
              have ihv := (IH (sizeOf va') hszva).2.2 va' le_rfl vb' (i + 1) path
                (by simpa using hlen)
              rw [diff_fields]
              by_cases hflen : f1.length = f2.length
              · have ihf := (IH (sizeOf f1) hszf).2.1 f1 le_rfl f2 0
                  (path ++ [47] ++ n1) "enum" [] [] hflen
                rw [if_neg (by simp [hflen])]
                cases hdf : diff_fields_walk 0 f1 f2 (path ++ [47] ++ n1) "enum" [] [] with
                | some e =>
                  simp only []
                  constructor
                  · intro h; exact absurd h (by simp)
                  · intro h
                    simp only [Bool.and_eq_true] at h
                    have := ihf.mpr h.1.2
                    rw [hdf] at this
                    exact absurd this (by simp)
                | none =>
                  simp only []
                  rw [ihv]
                  have hcf : fieldsCompat f1 f2 = true := ihf.mp hdf
                  simp [hn, hd, hcf]
              · rw [if_pos (by simp [hflen])]
                simp only []
                constructor
                · intro h; exact absurd h (by simp)
                · intro h
                  simp only [Bool.and_eq_true] at h
                  exact absurd (fieldsCompat_length f1 f2 h.1.2) hflen
            · rw [if_pos (by simp [hd])]
              constructor
              · intro h; exact absurd h (by simp)
              · intro h
                simp only [Bool.and_eq_true, decide_eq_true_eq] at h
                exact absurd h.1.1.2 hd
          · rw [if_pos (by simp [hn])]
            constructor
            · intro h; exact absurd h (by simp)
            · intro h
              simp only [Bool.and_eq_true, decide_eq_true_eq] at h
              exact absurd h.1.1.1 hn

/-- `diff_schema a b path = none` exactly when `a` and `b` are structurally
equal up to struct debug names with no `Undefined` on either side. -/
theorem diff_schema_none_iff (a b : Schema) (path : List Nat) :
    diff_schema a b path = none ↔ schemaCompat a b = true :=
  (diff_none_iff_all (sizeOf a)).1 a le_rfl b path

/-- `schemaCompat` is reflexive on schemas free of `Undefined`. -/
theorem schemaCompat_refl_all : ∀ N : Nat,
    (∀ s : Schema, sizeOf s ≤ N → noUndef s = true → schemaCompat s s = true) ∧
    (∀ fs : List Field, sizeOf fs ≤ N → noUndefFields fs = true → fieldsCompat fs fs = true) ∧
    (∀ vs : List Variant, sizeOf vs ≤ N → noUndefVariants vs = true →
      variantsCompat vs vs = true) := by
  intro N
  induction N using Nat.strong_induction_on with
  | _ N IH =>
    refine ⟨?_, ?_, ?_⟩
    · intro s hs hnu
      cases s with
      | Struct dbg fs =>
        have hszfs : sizeOf fs < N := by
          have : sizeOf fs < sizeOf (Schema.Struct dbg fs) := by
            first | (simp; omega) | simp
          omega
        rw [noUndef] at hnu
        rw [schemaCompat]
        exact (IH (sizeOf fs) hszfs).2.1 fs le_rfl hnu
      | Enum vs =>
        have hszvs : sizeOf vs < N := by
          have : sizeOf vs < sizeOf (Schema.Enum vs) := by
            first | (simp; omega) | simp
          omega
        rw [noUndef] at hnu
        rw [schemaCompat]
        exact (IH (sizeOf vs) hszvs).2.2 vs le_rfl hnu
      | Primitive p => simp [schemaCompat]
      | Vector e =>
        have hsze : sizeOf e < N := by
          have : sizeOf e < sizeOf (Schema.Vector e) := by
            first | (simp; omega) | simp
          omega
        rw [noUndef] at hnu
        rw [schemaCompat]
        exact (IH (sizeOf e) hsze).1 e le_rfl hnu
      | Undefined => rw [noUndef] at hnu; exact absurd hnu (by simp)
    · intro fs hs hnu
      cases fs with
      | nil => simp [fieldsCompat]
      | cons fd fs' =>
        obtain ⟨n, s⟩ := fd
        rw [noUndefFields] at hnu
        simp only [Bool.and_eq_true] at hnu
        have hszs : sizeOf s < N := by
          have : sizeOf s < sizeOf ((n, s) :: fs') := by
            first | (simp; omega) | simp
          omega
        have hszfs : sizeOf fs' < N := by
          have : sizeOf fs' < sizeOf ((n, s) :: fs') := by
            first | (simp; omega) | simp
          omega
        rw [fieldsCompat]
        simp [(IH (sizeOf s) hszs).1 s le_rfl hnu.1,
          (IH (sizeOf fs') hszfs).2.1 fs' le_rfl hnu.2]
    · intro vs hs hnu
      cases vs with
      | nil => simp [variantsCompat]
      | cons vd vs' =>
        obtain ⟨n, d, f⟩ := vd
        rw [noUndefVariants] at hnu
        simp only [Bool.and_eq_true] at hnu
        have hszf : sizeOf f < N := by
          have : sizeOf f < sizeOf ((n, d, f) :: vs') := by
            first | (simp; omega) | simp
          omega
        have hszvs : sizeOf vs' < N := by
          have : sizeOf vs' < sizeOf ((n, d, f) :: vs') := by
            first | (simp; omega) | simp
          omega
        rw [variantsCompat]
        simp [(IH (sizeOf f) hszf).2.1 f le_rfl hnu.1,
          (IH (sizeOf vs') hszvs).2.2 vs' le_rfl hnu.2]

/-- Reflexivity of the diff on `Undefined`-free schemas. -/
theorem diff_schema_refl (s : Schema) (hnu : noUndef s = true) (path : List Nat) :
    diff_schema s s path = none :=
  (diff_schema_none_iff s s path).mpr
    ((schemaCompat_refl_all (sizeOf s)).1 s le_rfl hnu)

/-- `schemaCompat` is symmetric. -/
theorem schemaCompat_symm_all : ∀ N : Nat,
    (∀ a : Schema, sizeOf a ≤ N → ∀ b, schemaCompat a b = schemaCompat b a) ∧
    (∀ fa : List Field, sizeOf fa ≤ N → ∀ fb, fieldsCompat fa fb = fieldsCompat fb fa) ∧
    (∀ va : List Variant, sizeOf va ≤ N → ∀ vb,
      variantsCompat va vb = variantsCompat vb va) := by
  intro N
  induction N using Nat.strong_induction_on with
  | _ N IH =>
    refine ⟨?_, ?_, ?_⟩
    · intro a ha b
      cases a with
      | Struct na fa =>
        cases b with
        | Struct nb fb =>
          have hszfa : sizeOf fa < N := by
            have : sizeOf fa < sizeOf (Schema.Struct na fa) := by
              first | (simp; omega) | simp
            omega
          rw [schemaCompat, schemaCompat]
          exact (IH (sizeOf fa) hszfa).2.1 fa le_rfl fb
        | Enum vb => simp [schemaCompat]
        | Primitive pb => simp [schemaCompat]
        | Vector eb => simp [schemaCompat]
        | Undefined => simp [schemaCompat]
      | Enum va =>
        cases b with
        | Struct nb fb => simp [schemaCompat]
        | Enum vb =>
          have hszva : sizeOf va < N := by
            have : sizeOf va < sizeOf (Schema.Enum va) := by
              first | (simp; omega) | simp
            omega
          rw [schemaCompat, schemaCompat]
          exact (IH (sizeOf va) hszva).2.2 va le_rfl vb
        | Primitive pb => simp [schemaCompat]
        | Vector eb => simp [schemaCompat]
        | Undefined => simp [schemaCompat]
      | Primitive pa =>
        cases b with
        | Struct nb fb => simp [schemaCompat]
        | Enum vb => simp [schemaCompat]
        | Primitive pb =>
          rw [schemaCompat, schemaCompat]
          simp [eq_comm]
        | Vector eb => simp [schemaCompat]
        | Undefined => simp [schemaCompat]
      | Vector ea =>
        cases b with
        | Struct nb fb => simp [schemaCompat]
        | Enum vb => simp [schemaCompat]
        | Primitive pb => simp [schemaCompat]
        | Vector eb =>
          have hsze : sizeOf ea < N := by
            have : sizeOf ea < sizeOf (Schema.Vector ea) := by
              first | (simp; omega) | simp
            omega
          rw [schemaCompat, schemaCompat]
          exact (IH (sizeOf ea) hsze).1 ea le_rfl eb
        | Undefined => simp [schemaCompat]
      | Undefined =>
        cases b <;> simp [schemaCompat]
    · intro fa ha fb
      cases fa with
      | nil =>
        cases fb with
        | nil => rfl
        | cons gd fb' =>
          obtain ⟨n, s⟩ := gd
          simp [fieldsCompat]
      | cons fd fa' =>
        obtain ⟨n1, s1⟩ := fd
        cases fb with
        | nil => simp [fieldsCompat]
        | cons gd fb' =>
          obtain ⟨n2, s2⟩ := gd
          have hszs : sizeOf s1 < N := by
            have : sizeOf s1 < sizeOf ((n1, s1) :: fa') := by
              first | (simp; omega) | simp
            omega
          have hszfa : sizeOf fa' < N := by
            have : sizeOf fa' < sizeOf ((n1, s1) :: fa') := by
              first | (simp; omega) | simp
            omega
          rw [fieldsCompat, fieldsCompat,
            (IH (sizeOf s1) hszs).1 s1 le_rfl s2,
            (IH (sizeOf fa') hszfa).2.1 fa' le_rfl fb']
          simp [eq_comm]
    · intro va ha vb
      cases va with
      | nil =>
        cases vb with
        | nil => rfl
        | cons wd vb' =>
          obtain ⟨n, d, f⟩ := wd
          simp [variantsCompat]
      | cons vd va' =>
        obtain ⟨n1, d1, f1⟩ := vd
        cases vb with
        | nil => simp [variantsCompat]
        | cons wd vb' =>
          obtain ⟨n2, d2, f2⟩ := wd
          have hszf : sizeOf f1 < N := by
            have : sizeOf f1 < sizeOf ((n1, d1, f1) :: va') := by
              first | (simp; omega) | simp
            omega
          have hszva : sizeOf va' < N := by
            have : sizeOf va' < sizeOf ((n1, d1, f1) :: va') := by
              first | (simp; omega) | simp
            omega
          rw [variantsCompat, variantsCompat,
            (IH (sizeOf f1) hszf).2.1 f1 le_rfl f2,
            (IH (sizeOf va') hszva).2.2 va' le_rfl vb']
          simp only [eq_comm]

/-! ## Codec correctness bundles and the save/load round-trip -/

/-- The properties a trait implementation actually has (and that the
round-trip needs): deserialization inverts serialization on valid values at
every version, and the schema is a well-formed, `Undefined`-free value at
every version. -/
structure GoodCodec (c : Codec α) : Prop where
  ser_deser : ∀ v x rest, c.valid x → c.deser v (c.ser v x ++ rest) = (.ok x, rest)
  schema_wf : ∀ v, schemaWf (c.schema v) = true
  schema_noUndef : ∀ v, noUndef (c.schema v) = true

/-- The save/load round-trip with the schema check enabled: saving a valid
value at version `v` and loading with memory version `v` succeeds and
returns the value, consuming exactly the saved bytes. -/
theorem load_impl_save_impl (c : Codec α) (g : GoodCodec c) (v : Nat)
    (hv : v < 2 ^ 32) (x : α) (hx : c.valid x) (rest : List Nat) :
    load_impl c v true (save_impl c v x true ++ rest) = (.ok x, rest) := by
  rw [save_impl, load_impl]
  simp only [if_true, List.append_assoc]
  rw [readU32St_small v hv]
  simp only [gt_iff_lt, lt_irrefl, if_false,
    Schema.deserialize_serSchema (c.schema v) (g.schema_wf v),
    diff_schema_refl (c.schema v) (g.schema_noUndef v) pathDot]
  exact g.ser_deser v x rest hx

/-- Schema-less round trip (`save_noschema` / `load_noschema`). -/
theorem load_impl_save_impl_noschema (c : Codec α) (g : GoodCodec c) (v : Nat)
    (hv : v < 2 ^ 32) (x : α) (hx : c.valid x) (rest : List Nat) :
    load_impl c v false (save_impl c v x false ++ rest) = (.ok x, rest) := by
  rw [save_impl, load_impl]
  simp only [if_false, List.append_assoc, List.nil_append]
  rw [readU32St_small v hv]
  simp only [gt_iff_lt, lt_irrefl, if_false]
  exact g.ser_deser v x rest hx

/-! ### Goodness of the primitive codecs -/

theorem u8Codec_good : GoodCodec u8Codec := by
  refine ⟨?_, ?_, ?_⟩
  · intro v x rest hx
    show readU8St (leBytes 1 x ++ rest) = (.ok x, rest)
    rw [readU8St_leBytes, Nat.mod_eq_of_lt hx]
  · intro v; rw [u8Codec]; rw [schemaWf]
  · intro v; rw [u8Codec]; rw [noUndef]

theorem u16Codec_good : GoodCodec u16Codec := by
  refine ⟨?_, ?_, ?_⟩
  · intro v x rest hx
    show readU16St (leBytes 2 x ++ rest) = (.ok x, rest)
    rw [readU16St_leBytes, Nat.mod_eq_of_lt hx]
  · intro v; rw [u16Codec]; rw [schemaWf]
  · intro v; rw [u16Codec]; rw [noUndef]

theorem u32Codec_good : GoodCodec u32Codec := by
  refine ⟨?_, ?_, ?_⟩
  · intro v x rest hx
    show readU32St (leBytes 4 x ++ rest) = (.ok x, rest)
    rw [readU32St_leBytes, Nat.mod_eq_of_lt hx]
  · intro v; rw [u32Codec]; rw [schemaWf]
  · intro v; rw [u32Codec]; rw [noUndef]

theorem u64Codec_good : GoodCodec u64Codec := by
  refine ⟨?_, ?_, ?_⟩
  · intro v x rest hx
    show readU64St (leBytes 8 x ++ rest) = (.ok x, rest)
    rw [readU64St_leBytes, Nat.mod_eq_of_lt hx]
  · intro v; rw [u64Codec]; rw [schemaWf]
  · intro v; rw [u64Codec]; rw [noUndef]

theorem usizeCodec_good : GoodCodec usizeCodec := by
  refine ⟨?_, ?_, ?_⟩
  · intro v x rest hx
    show readU64St (leBytes 8 x ++ rest) = (.ok x, rest)
    rw [readU64St_leBytes, Nat.mod_eq_of_lt hx]
  · intro v; rw [usizeCodec]; rw [schemaWf]
  · intro v; rw [usizeCodec]; rw [noUndef]

theorem i8Codec_good : GoodCodec i8Codec := by
  refine ⟨?_, ?_, ?_⟩
  · intro v x rest hx
    show readISt 1 (leBytes 1 (intEncode 8 x) ++ rest) = (.ok x, rest)
    have h := readISt_leBytes 1 x rest (by norm_num) ?_ ?_
    · simpa using h
    · have := hx.1; push_cast at this ⊢; norm_num; omega
    · have := hx.2; push_cast at this ⊢; norm_num; omega
  · intro v; rw [i8Codec]; rw [schemaWf]
  · intro v; rw [i8Codec]; rw [noUndef]

theorem i16Codec_good : GoodCodec i16Codec := by
  refine ⟨?_, ?_, ?_⟩
  · intro v x rest hx
    show readISt 2 (leBytes 2 (intEncode 16 x) ++ rest) = (.ok x, rest)
    have h := readISt_leBytes 2 x rest (by norm_num) ?_ ?_
    · simpa using h
    · have := hx.1; push_cast at this ⊢; norm_num; omega
    · have := hx.2; push_cast at this ⊢; norm_num; omega
  · intro v; rw [i16Codec]; rw [schemaWf]
  · intro v; rw [i16Codec]; rw [noUndef]

theorem i32Codec_good : GoodCodec i32Codec := by
  refine ⟨?_, ?_, ?_⟩
  · intro v x rest hx
    show readISt 4 (leBytes 4 (intEncode 32 x) ++ rest) = (.ok x, rest)
    have h := readISt_leBytes 4 x rest (by norm_num) ?_ ?_
    · simpa using h
    · have := hx.1; push_cast at this ⊢; norm_num; omega
    · have := hx.2; push_cast at this ⊢; norm_num; omega
  · intro v; rw [i32Codec]; rw [schemaWf]
  · intro v; rw [i32Codec]; rw [noUndef]

theorem i64Codec_good : GoodCodec i64Codec := by
  refine ⟨?_, ?_, ?_⟩
  · intro v x rest hx
    show readISt 8 (leBytes 8 (intEncode 64 x) ++ rest) = (.ok x, rest)
    have h := readISt_leBytes 8 x rest (by norm_num) ?_ ?_
    · simpa using h
    · have := hx.1; push_cast at this ⊢; norm_num; omega
    · have := hx.2; push_cast at this ⊢; norm_num; omega
  · intro v; rw [i64Codec]; rw [schemaWf]
  · intro v; rw [i64Codec]; rw [noUndef]

theorem isizeCodec_good : GoodCodec isizeCodec := by
  refine ⟨?_, ?_, ?_⟩
  · intro v x rest hx
    show readISt 8 (leBytes 8 (intEncode 64 x) ++ rest) = (.ok x, rest)
    have h := readISt_leBytes 8 x rest (by norm_num) ?_ ?_
    · simpa using h
    · have := hx.1; push_cast at this ⊢; norm_num; omega
    · have := hx.2; push_cast at this ⊢; norm_num; omega
  · intro v; rw [isizeCodec]; rw [schemaWf]
  · intro v; rw [isizeCodec]; rw [noUndef]

theorem stringCodec_good : GoodCodec stringCodec := by
  refine ⟨?_, ?_, ?_⟩
  · intro v x rest hx
    exact readStringSt_serStr x hx.1 hx.2 rest
  · intro v; rw [stringCodec]; rw [schemaWf]
  · intro v; rw [stringCodec]; rw [noUndef]

/-! ### Goodness of the `Vec` codecs -/

theorem regularVecLoop_ser (c : Codec α)
    (hsd : ∀ v x rest, c.valid x → c.deser v (c.ser v x ++ rest) = (.ok x, rest))
    (v : Nat) :
    ∀ (xs : List α) (rest : List Nat), (∀ x ∈ xs, c.valid x) →
      regularVecLoop c v xs.length ((xs.map (c.ser v)).flatten ++ rest) = (.ok xs, rest) := by
  intro xs
  induction xs with
  | nil => intro rest hval; simp [regularVecLoop]
  | cons x xs' ih =>
    intro rest hval
    simp only [List.map_cons, List.flatten_cons, List.append_assoc, List.length_cons,
      regularVecLoop, hsd v x _ (hval x (by simp)),
      ih rest (fun y hy => hval y (by simp [hy]))]

theorem vecCodec_good (c : Codec α) (g : GoodCodec c) : GoodCodec (vecCodec c) := by
  refine ⟨?_, ?_, ?_⟩
  · intro v xs rest hx
    show regular_deserialize_vec c v (regular_serialize_vec c v xs ++ rest) = (.ok xs, rest)
    rw [regular_serialize_vec, regular_deserialize_vec, List.append_assoc]
    simp only [readU64St_small xs.length hx.1,
      regularVecLoop_ser c g.ser_deser v xs rest hx.2]
  · intro v
    show schemaWf (.Vector (c.schema v)) = true
    rw [schemaWf]; exact g.schema_wf v
  · intro v
    show noUndef (.Vector (c.schema v)) = true
    rw [noUndef]; exact g.schema_noUndef v

/-- The fast-path layout properties a correct `ReprC` impl has (conditions of
§"Rules to implement this trait" in the source, expressed at byte level):
fixed element size, lossless reinterpretation, and — whenever
`repr_c_optimization_safe` grants the optimization — bytes identical to the
general serializer's. -/
structure GoodReprC (c : Codec α) (r : ReprC α) : Prop where
  mem_len : ∀ x, c.valid x → (r.memBytes x).length = r.size_of
  mem_decode : ∀ x, c.valid x → r.memDecode (r.memBytes x) = x
  mem_ser : ∀ v x, c.valid x → r.repr_c_optimization_safe v = true →
    r.memBytes x = c.ser v x

theorem readNSt_len (buf rest : List Nat) (n : Nat) (h : buf.length = n) :
    readNSt n (buf ++ rest) = (.ok buf, rest) := by
  subst h; exact readNSt_exact buf rest

theorem memFlatten_length (c : Codec α) (r : ReprC α) (g : GoodReprC c r) :
    ∀ xs : List α, (∀ x ∈ xs, c.valid x) →
      ((xs.map r.memBytes).flatten).length = r.size_of * xs.length := by
  intro xs
  induction xs with
  | nil => intro _; simp
  | cons x xs' ih =>
    intro hval
    rw [List.map_cons, List.flatten_cons, List.length_append,
      g.mem_len x (hval x (by simp)), ih (fun y hy => hval y (by simp [hy])),
      List.length_cons]
    ring

theorem chunksDecode_mem (c : Codec α) (r : ReprC α) (g : GoodReprC c r) :
    ∀ xs : List α, (∀ x ∈ xs, c.valid x) →
      chunksDecode r xs.length ((xs.map r.memBytes).flatten) = xs := by
  intro xs
  induction xs with
  | nil => intro _; simp [chunksDecode]
  | cons x xs' ih =>
    intro hval
    have hx := hval x (by simp)
    have htake : (r.memBytes x ++ (xs'.map r.memBytes).flatten).take r.size_of
        = r.memBytes x := by
      rw [← g.mem_len x hx]
      exact List.take_left ..
    have hdrop : (r.memBytes x ++ (xs'.map r.memBytes).flatten).drop r.size_of
        = (xs'.map r.memBytes).flatten := by
      rw [← g.mem_len x hx]
      exact List.drop_left ..
    rw [List.map_cons, List.flatten_cons, List.length_cons, chunksDecode,
      htake, hdrop, g.mem_decode x hx, ih (fun y hy => hval y (by simp [hy]))]

theorem vecReprCCodec_good (c : Codec α) (r : ReprC α) (g : GoodCodec c)
    (gr : GoodReprC c r) : GoodCodec (vecReprCCodec c r) := by
  refine ⟨?_, ?_, ?_⟩
  · intro v xs rest hx
    show (vecReprCCodec c r).deser v ((vecReprCCodec c r).ser v xs ++ rest) = (.ok xs, rest)
    rw [vecReprCCodec]
    by_cases hsafe : r.repr_c_optimization_safe v = true
    · have hbuf := readNSt_len ((xs.map r.memBytes).flatten) rest (r.size_of * xs.length)
        (memFlatten_length c r gr xs hx.2)
      simp only [hsafe, if_true, List.append_assoc, readU64St_small xs.length hx.1,
        hbuf, chunksDecode_mem c r gr xs hx.2]
    · simp only [hsafe, if_false, Bool.false_eq_true]
      rw [regular_serialize_vec, regular_deserialize_vec, List.append_assoc]
      simp only [readU64St_small xs.length hx.1,
        regularVecLoop_ser c g.ser_deser v xs rest hx.2]
  · intro v
    show schemaWf (.Vector (c.schema v)) = true
    rw [schemaWf]; exact g.schema_wf v
  · intro v
    show noUndef (.Vector (c.schema v)) = true
    rw [noUndef]; exact g.schema_noUndef v

/-! ### Goodness of the primitive `ReprC` impls -/

theorem signed_mem_decode (k w : Nat) (hkw : w = 8 * k) (hk : 1 ≤ k) (x : Int)
    (h1 : -((2 : Int) ^ (w - 1)) ≤ x) (h2 : x < (2 : Int) ^ (w - 1)) :
    intDecode w (decodeLE (leBytes k (intEncode w x))) = x := by
  subst hkw
  rw [decodeLE_leBytes]
  have h256 : (256 : Nat) ^ k = 2 ^ (8 * k) := by
    rw [show (256 : Nat) = 2 ^ 8 by norm_num, ← pow_mul]
  rw [h256, Nat.mod_eq_of_lt (intEncode_lt _ _),
    intDecode_intEncode (8 * k) x (by omega) h1 h2]

theorem u8ReprC_good : GoodReprC u8Codec u8ReprC := by
  refine ⟨?_, ?_, ?_⟩
  · intro x _; exact leBytes_length 1 x
  · intro x hx
    show decodeLE (leBytes 1 x) = x
    have hx' : x < 2 ^ 8 := hx
    rw [decodeLE_leBytes, show (256 : Nat) ^ 1 = 2 ^ 8 by norm_num]
    exact Nat.mod_eq_of_lt hx'
  · intro v x _ _; rfl

theorem u16ReprC_good : GoodReprC u16Codec u16ReprC := by
  refine ⟨?_, ?_, ?_⟩
  · intro x _; exact leBytes_length 2 x
  · intro x hx
    show decodeLE (leBytes 2 x) = x
    have hx' : x < 2 ^ 16 := hx
    rw [decodeLE_leBytes, show (256 : Nat) ^ 2 = 2 ^ 16 by norm_num]
    exact Nat.mod_eq_of_lt hx'
  · intro v x _ _; rfl

theorem u32ReprC_good : GoodReprC u32Codec u32ReprC := by
  refine ⟨?_, ?_, ?_⟩
  · intro x _; exact leBytes_length 4 x
  · intro x hx
    show decodeLE (leBytes 4 x) = x
    have hx' : x < 2 ^ 32 := hx
    rw [decodeLE_leBytes, show (256 : Nat) ^ 4 = 2 ^ 32 by norm_num]
    exact Nat.mod_eq_of_lt hx'
  · intro v x _ _; rfl

theorem u64ReprC_good : GoodReprC u64Codec u64ReprC := by
  refine ⟨?_, ?_, ?_⟩
  · intro x _; exact leBytes_length 8 x
  · intro x hx
    show decodeLE (leBytes 8 x) = x
    have hx' : x < 2 ^ 64 := hx
    rw [decodeLE_leBytes, show (256 : Nat) ^ 8 = 2 ^ 64 by norm_num]
    exact Nat.mod_eq_of_lt hx'
  · intro v x _ _; rfl

theorem usizeReprC_good : GoodReprC usizeCodec usizeReprC := by
  refine ⟨?_, ?_, ?_⟩
  · intro x _; exact leBytes_length 8 x
  · intro x hx
    show decodeLE (leBytes 8 x) = x
    have hx' : x < 2 ^ 64 := hx
    rw [decodeLE_leBytes, show (256 : Nat) ^ 8 = 2 ^ 64 by norm_num]
    exact Nat.mod_eq_of_lt hx'
  · intro v x _ _; rfl

theorem i8ReprC_good : GoodReprC i8Codec i8ReprC := by
  refine ⟨?_, ?_, ?_⟩
  · intro x _; exact leBytes_length 1 _
  · intro x hx
    show intDecode 8 (decodeLE (leBytes 1 (intEncode 8 x))) = x
    have h1 : -((2 : Int) ^ 7) ≤ x := by
      have h := hx.1; push_cast at h; exact h
    have h2 : x < (2 : Int) ^ 7 := by
      have h := hx.2; push_cast at h; exact h
    exact signed_mem_decode 1 8 (by norm_num) (by norm_num) x h1 h2
  · intro v x _ _; rfl

theorem i16ReprC_good : GoodReprC i16Codec i16ReprC := by
  refine ⟨?_, ?_, ?_⟩
  · intro x _; exact leBytes_length 2 _
  · intro x hx
    show intDecode 16 (decodeLE (leBytes 2 (intEncode 16 x))) = x
    have h1 : -((2 : Int) ^ 15) ≤ x := by
      have h := hx.1; push_cast at h; exact h
    have h2 : x < (2 : Int) ^ 15 := by
      have h := hx.2; push_cast at h; exact h
    exact signed_mem_decode 2 16 (by norm_num) (by norm_num) x h1 h2
  · intro v x _ _; rfl

theorem i32ReprC_good : GoodReprC i32Codec i32ReprC := by
  refine ⟨?_, ?_, ?_⟩
  · intro x _; exact leBytes_length 4 _
  · intro x hx
    show intDecode 32 (decodeLE (leBytes 4 (intEncode 32 x))) = x
    have h1 : -((2 : Int) ^ 31) ≤ x := by
      have h := hx.1; push_cast at h; exact h
    have h2 : x < (2 : Int) ^ 31 := by
      have h := hx.2; push_cast at h; exact h
    exact signed_mem_decode 4 32 (by norm_num) (by norm_num) x h1 h2
  · intro v x _ _; rfl

theorem i64ReprC_good : GoodReprC i64Codec i64ReprC := by
  refine ⟨?_, ?_, ?_⟩
  · intro x _; exact leBytes_length 8 _
  · intro x hx
    show intDecode 64 (decodeLE (leBytes 8 (intEncode 64 x))) = x
    have h1 : -((2 : Int) ^ 63) ≤ x := by
      have h := hx.1; push_cast at h; exact h
    have h2 : x < (2 : Int) ^ 63 := by
      have h := hx.2; push_cast at h; exact h
    exact signed_mem_decode 8 64 (by norm_num) (by norm_num) x h1 h2
  · intro v x _ _; rfl

theorem isizeReprC_good : GoodReprC isizeCodec isizeReprC := by
  refine ⟨?_, ?_, ?_⟩
  · intro x _; exact leBytes_length 8 _
  · intro x hx
    show intDecode 64 (decodeLE (leBytes 8 (intEncode 64 x))) = x
    have h1 : -((2 : Int) ^ 63) ≤ x := by
      have h := hx.1; push_cast at h; exact h
    have h2 : x < (2 : Int) ^ 63 := by
      have h := hx.2; push_cast at h; exact h
    exact signed_mem_decode 8 64 (by norm_num) (by norm_num) x h1 h2
  · intro v x _ _; rfl

/-! ### Goodness of the HashMap codec -/

theorem HMap.insert_not_mem [DecidableEq K] (m : HMap K V) (k : K) (v : V)
    (h : k ∉ m.val.map Prod.fst) : (m.insert k v).val = m.val ++ [(k, v)] := by
  rw [HMap.insert, dif_neg h]

theorem hmapLoop_ser [DecidableEq K] (kc : Codec K) (vc : Codec V)
    (hk : ∀ v x rest, kc.valid x → kc.deser v (kc.ser v x ++ rest) = (.ok x, rest))
    (hw : ∀ v x rest, vc.valid x → vc.deser v (vc.ser v x ++ rest) = (.ok x, rest))
    (v : Nat) :
    ∀ (ps : List (K × V)) (m0 m1 : HMap K V) (rest : List Nat),
      (∀ p ∈ ps, kc.valid p.1 ∧ vc.valid p.2) →
      (∀ p ∈ ps, p.1 ∉ m0.val.map Prod.fst) →
      (ps.map Prod.fst).Nodup →
      m1.val = m0.val ++ ps →
      hmapLoop kc vc v ps.length m0
        ((ps.map fun p => kc.ser v p.1 ++ vc.ser v p.2).flatten ++ rest) = (.ok m1, rest) := by
  intro ps
  induction ps with
  | nil =>
    intro m0 m1 rest _ _ _ hm1
    have : m1 = m0 := Subtype.ext (by simpa using hm1)
    subst this
    simp [hmapLoop]
  | cons p ps' ih =>
    intro m0 m1 rest hval hnew hnodup hm1
    obtain ⟨k, w⟩ := p
    have hnodup' : k ∉ ps'.map Prod.fst ∧ (ps'.map Prod.fst).Nodup := by
      rw [List.map_cons, List.nodup_cons] at hnodup
      exact hnodup
    simp only [List.map_cons, List.flatten_cons, List.append_assoc,
      List.length_cons, hmapLoop,
      hk v k _ (hval (k, w) (by simp)).1,
      hw v w _ (hval (k, w) (by simp)).2]
    have hins : (m0.insert k w).val = m0.val ++ [(k, w)] :=
      HMap.insert_not_mem m0 k w (hnew (k, w) (by simp))
    refine ih (m0.insert k w) m1 rest
      (fun q hq => hval q (by simp [hq])) ?_ hnodup'.2 ?_
    · intro q hq
      rw [hins, List.map_append]
      simp only [List.mem_append, List.map_cons, List.map_nil, List.mem_singleton]
      rintro (hmem | hqk)
      · exact hnew q (by simp [hq]) hmem
      · exact hnodup'.1 (hqk ▸ List.mem_map_of_mem Prod.fst hq)
    · rw [hm1, hins]
      simp

theorem hmapCodec_good [DecidableEq K] (kc : Codec K) (vc : Codec V)
    (gk : GoodCodec kc) (gv : GoodCodec vc) : GoodCodec (hmapCodec kc vc) := by
  refine ⟨?_, ?_, ?_⟩
  · intro v m rest hm
    show (hmapCodec kc vc).deser v ((hmapCodec kc vc).ser v m ++ rest) = (.ok m, rest)
    simp only [hmapCodec, List.append_assoc]
    rw [readU64St_small m.val.length hm.1]
    exact hmapLoop_ser kc vc gk.ser_deser gv.ser_deser v m.val (HMap.empty K V) m rest
      (fun p hp => hm.2 p hp) (by simp [HMap.empty]) m.property (by simp [HMap.empty])
  · intro v
    show schemaWf (.Vector (.Struct kvPairName
      [(keyName, kc.schema v), (valueName, vc.schema v)])) = true
    simp only [schemaWf, wfFields, Bool.and_eq_true, decide_eq_true_eq,
      List.length_cons, List.length_nil, gk.schema_wf v, gv.schema_wf v,
      and_true, true_and]
    repeat' apply And.intro
    all_goals decide
  · intro v
    show noUndef (.Vector (.Struct kvPairName
      [(keyName, kc.schema v), (valueName, vc.schema v)])) = true
    simp only [noUndef, noUndefFields, Bool.and_eq_true,
      gk.schema_noUndef v, gv.schema_noUndef v, and_true, true_and]

/-! ## Claims -/

theorem readU32St_of_len (l : List Nat) (h4 : 4 ≤ l.length) :
    readU32St l = (.ok (decodeLE (l.take 4)), l.drop 4) := by
  rw [readU32St, readNSt, if_pos h4]

theorem roundTrips_of_good (c : Codec α) (g : GoodCodec c) : RoundTrips c :=
  fun v x rest hv hx => load_impl_save_impl c g v hv x hx rest

/-- C4: for every stream whose first four little-endian bytes decode a file
version strictly greater than the memory version, `load_impl` fails with the
fatal `NewerFileVersion` condition (the panic at the version check) after
consuming exactly the four version bytes: the remaining stream is the input
minus its first four bytes, schema and payload untouched.  This holds for
any target type and with the schema check both enabled and disabled. -/
theorem C4_newer_file_rejected (α : Type) (c : Codec α) (ws : Bool) (mem : Nat)
    (l : List Nat) (h4 : 4 ≤ l.length) (hgt : decodeLE (l.take 4) > mem) :
    load_impl c mem ws l =
      (.fatal (.newerFileVersion (decodeLE (l.take 4)) mem), l.drop 4) := by
  rw [load_impl]
  simp only [readU32St_of_len l h4, if_pos hgt]

/-- Witness for C4: a stream with file version 2 against memory version 1 is
rejected as `NewerFileVersion 2 1` with only the four version bytes
consumed, the payload byte `99` untouched. -/
theorem C4_witness :
    4 ≤ ([2, 0, 0, 0, 99] : List Nat).length ∧
    decodeLE (([2, 0, 0, 0, 99] : List Nat).take 4) > 1 ∧
    load_impl u8Codec 1 true [2, 0, 0, 0, 99] =
      (.fatal (.newerFileVersion 2 1), [99]) := by
  refine ⟨by decide, by decide, ?_⟩
  have h := C4_newer_file_rejected Nat u8Codec true 1 [2, 0, 0, 0, 99]
    (by decide) (by decide)
  simpa using h

/-- C5: the claim says every failing sink write is returned to the caller as
an `IOError`, including a failure while writing the initial 4-byte version
number.  The code instead calls `.unwrap()` on the version write: a sink
that fails during those first four bytes makes `save_impl` panic rather
than return `Err(IOError)` — evaluated here on a sink of capacity 0.  (A
failure in the schema or payload writes *is* returned as `IOError`, shown by
the second and third conjuncts, so the version write genuinely is escalated
differently.) -/
theorem C5_version_write_unwrap_eval :
    save_impl_sink u8Codec 0 1 5 true = (.fatal .unwrapFailedOnVersionWrite, 0) ∧
    (∀ cap : Nat, 4 ≤ cap →
      cap < 4 + (serSchema (u8Codec.schema 1)).length →
      save_impl_sink u8Codec cap 1 5 true = (.err .ioError, cap - 4)) ∧
    save_impl_sink u8Codec 4 1 5 false = (.err .ioError, 0) := by
  refine ⟨by rfl, ?_, by rfl⟩
  intro cap h4 hcap
  rw [save_impl_sink, writeAll,
    if_pos (by simp only [u32le, leBytes_length]; omega : (u32le 1).length ≤ cap)]
  simp only [u32le, leBytes_length, if_true]
  rw [writeAll, if_neg (by omega)]

/-- Witness for C5's quantified conjunct: with capacity 5 the version write
succeeds and the schema write fails, surfacing `IOError` to the caller. -/
theorem C5_witness :
    (4 ≤ 5 ∧ 5 < 4 + (serSchema (u8Codec.schema 1)).length) ∧
    save_impl_sink u8Codec 5 1 5 true = (.err .ioError, 1) := by
  have hlen : (serSchema (u8Codec.schema 1)).length = 4 := by
    simp [u8Codec, serSchema, serPrimitive, primDiscr, u16le, leBytes_length]
  refine ⟨⟨by norm_num, by rw [hlen]; norm_num⟩, ?_⟩
  have h := C5_version_write_unwrap_eval.2.1 5 (by norm_num) (by rw [hlen]; norm_num)
  simpa using h

/-- C7: `Serialize for Removed<T>` is an unconditional panic (the removed
field must never be written), for every version and every value — no bytes
are produced, so no sink is touched; `Deserialize for Removed<T>` reads and
discards exactly one wire-encoded `T` (consuming exactly the bytes the `T`
occupies, leaving the rest of the stream) and yields the placeholder, which
equals a freshly constructed `Removed::new()` (any two placeholders are
equal). -/
theorem C7_removed_field (α : Type) :
    (∀ (v : Nat) (x : Removed α), removedSerialize α v x = .fatal .removedFieldSerialized) ∧
    (∀ (c : Codec α) (v : Nat) (x : α) (rest : List Nat),
      (∀ v' x' rest', c.valid x' → c.deser v' (c.ser v' x' ++ rest') = (.ok x', rest')) →
      c.valid x →
      removedDeserialize c v (c.ser v x ++ rest) = (.ok (Removed.new α), rest)) ∧
    (∀ a b : Removed α, a = b) := by
  refine ⟨fun _ _ => rfl, ?_, fun a b => rfl⟩
  intro c v x rest hsd hx
  rw [removedDeserialize]
  simp only [hsd v x rest hx]

/-- Witness for C7: discarding a `u32` consumes exactly its four bytes and
yields the placeholder. -/
theorem C7_witness :
    u32Codec.valid 7 ∧
    removedDeserialize u32Codec 0 (u32Codec.ser 0 7 ++ [9]) =
      (.ok (Removed.new Nat), [9]) :=
  ⟨(by norm_num : (7 : Nat) < 2 ^ 32), (C7_removed_field Nat).2.1 u32Codec 0 7 [9]
    (fun v' x' rest' h => u32Codec_good.ser_deser v' x' rest' h)
    (by norm_num : (7 : Nat) < 2 ^ 32)⟩

/-- C10: `diff_schema` is symmetric in success — it reports no difference on
`(a, b)` exactly when it reports no difference on `(b, a)`, for every path
(the mismatch messages may differ; whether a difference is found does not
depend on argument order). -/
theorem C10_diff_none_symmetric (a b : Schema) (path : List Nat) :
    diff_schema a b path = none ↔ diff_schema b a path = none := by
  rw [diff_schema_none_iff, diff_schema_none_iff,
    (schemaCompat_symm_all (sizeOf a)).1 a le_rfl b]

/-- C2 counterexample: the claim "diff_schema returns None iff the schemas
are structurally equal (including struct debug names and the Undefined
variant)" fails in both directions: `Undefined` equals `Undefined` yet the
diff reports an error, and two structs that differ only in debug name are
unequal yet the diff reports no difference. -/
theorem C2_counterexample :
    (Schema.Undefined = Schema.Undefined ∧
      diff_schema Schema.Undefined Schema.Undefined [46] ≠ none) ∧
    (diff_schema (Schema.Struct [65] []) (Schema.Struct [66] []) [46] = none ∧
      Schema.Struct [65] [] ≠ Schema.Struct [66] []) := by
  refine ⟨⟨rfl, ?_⟩, ?_, ?_⟩
  · simp [diff_schema]
  · simp [diff_schema, diff_struct, diff_fields, diff_fields_walk]
  · intro h
    injection h with h1 h2
    simp at h1

/-- C2 (amended): `diff_schema a b path` returns `None` iff `a` and `b` are
structurally equal *up to struct debug names* (which the diff never
compares) *and contain no `Undefined` node* (which the diff always reports
as an error, even against another `Undefined`) — the relation decided by
`schemaCompat`. -/
theorem C2_diff_none_iff_compat (a b : Schema) (path : List Nat) :
    diff_schema a b path = none ↔ schemaCompat a b = true :=
  diff_schema_none_iff a b path

/-- C3 counterexample: the schema meta-types (`Field`, `Variant`,
`SchemaStruct`, `SchemaEnum`, `SchemaPrimitive`, `Schema`) have schema
functions returning `Undefined`, and for them diff reflexivity *fails*:
`diff_schema(T::schema(V), T::schema(V), ".")` is `Some("Undefined schema
encountered")`, not `None`, at every version — here at version 0. -/
theorem C3_counterexample :
    diff_schema (schemaSchemaFn 0) (schemaSchemaFn 0) [46] ≠ none ∧
    diff_schema (fieldSchemaFn 0) (fieldSchemaFn 0) [46] ≠ none ∧
    diff_schema (variantSchemaFn 0) (variantSchemaFn 0) [46] ≠ none ∧
    diff_schema (schemaStructSchemaFn 0) (schemaStructSchemaFn 0) [46] ≠ none ∧
    diff_schema (schemaEnumSchemaFn 0) (schemaEnumSchemaFn 0) [46] ≠ none ∧
    diff_schema (schemaPrimitiveSchemaFn 0) (schemaPrimitiveSchemaFn 0) [46] ≠ none := by
  refine ⟨?_, ?_, ?_, ?_, ?_, ?_⟩ <;>
    simp [diff_schema, schemaSchemaFn, fieldSchemaFn, variantSchemaFn,
      schemaStructSchemaFn, schemaEnumSchemaFn, schemaPrimitiveSchemaFn]

/-- C3 (amended): diff reflexivity `diff_schema(s, s, path) = None` holds
exactly for schemas containing no `Undefined` node — in particular for
every built-in payload type's schema at every version — while the schema
meta-types, whose schema function returns `Undefined`, get an error
instead. -/
theorem C3_diff_reflexive (s : Schema) (path : List Nat) (hnu : noUndef s = true) :
    diff_schema s s path = none :=
  diff_schema_refl s hnu path

/-- Witness for C3: reflexivity at the `HashMap<String, u32>` schema
(a concrete `Undefined`-free schema tree) and at the `u32` schema. -/
theorem C3_witness :
    noUndef ((hmapCodec stringCodec u32Codec).schema 3) = true ∧
    diff_schema ((hmapCodec stringCodec u32Codec).schema 3)
      ((hmapCodec stringCodec u32Codec).schema 3) [46] = none ∧
    noUndef (u32Codec.schema 0) = true ∧
    diff_schema (u32Codec.schema 0) (u32Codec.schema 0) [46] = none := by
  have h1 : noUndef ((hmapCodec stringCodec u32Codec).schema 3) = true :=
    (hmapCodec_good stringCodec u32Codec stringCodec_good u32Codec_good).schema_noUndef 3
  have h2 : noUndef (u32Codec.schema 0) = true := u32Codec_good.schema_noUndef 0
  exact ⟨h1, C3_diff_reflexive _ [46] h1, h2, C3_diff_reflexive _ [46] h2⟩

/-- C9: whenever `repr_c_optimization_safe` grants the POD fast path at a
version, the fast-path bytes (length prefix, then one contiguous copy of
the elements' in-memory bytes) are identical to the general element-by-
element path's bytes, for the same sequence at the same version: generic
over any element codec whose `ReprC` impl is correct, and unconditionally
for the ten built-in integer `ReprC` impls (whose optimization is granted
at every version).  The in-memory layout is modelled from the spec (the
little-endian 64-bit platform layout of the integer primitives). -/
theorem C9_pod_path_equivalence :
    (∀ (α : Type) (c : Codec α) (r : ReprC α), GoodReprC c r →
      ∀ (v : Nat) (xs : List α), r.repr_c_optimization_safe v = true →
      (∀ x ∈ xs, c.valid x) →
      (vecReprCCodec c r).ser v xs = regular_serialize_vec c v xs) ∧
    (∀ (v : Nat) (xs : List Nat),
      (vecReprCCodec u8Codec u8ReprC).ser v xs = regular_serialize_vec u8Codec v xs) ∧
    (∀ (v : Nat) (xs : List Nat),
      (vecReprCCodec u16Codec u16ReprC).ser v xs = regular_serialize_vec u16Codec v xs) ∧
    (∀ (v : Nat) (xs : List Nat),
      (vecReprCCodec u32Codec u32ReprC).ser v xs = regular_serialize_vec u32Codec v xs) ∧
    (∀ (v : Nat) (xs : List Nat),
      (vecReprCCodec u64Codec u64ReprC).ser v xs = regular_serialize_vec u64Codec v xs) ∧
    (∀ (v : Nat) (xs : List Nat),
      (vecReprCCodec usizeCodec usizeReprC).ser v xs
        = regular_serialize_vec usizeCodec v xs) ∧
    (∀ (v : Nat) (xs : List Int),
      (vecReprCCodec i8Codec i8ReprC).ser v xs = regular_serialize_vec i8Codec v xs) ∧
    (∀ (v : Nat) (xs : List Int),
      (vecReprCCodec i16Codec i16ReprC).ser v xs = regular_serialize_vec i16Codec v xs) ∧
    (∀ (v : Nat) (xs : List Int),
      (vecReprCCodec i32Codec i32ReprC).ser v xs = regular_serialize_vec i32Codec v xs) ∧
    (∀ (v : Nat) (xs : List Int),
      (vecReprCCodec i64Codec i64ReprC).ser v xs = regular_serialize_vec i64Codec v xs) ∧
    (∀ (v : Nat) (xs : List Int),
      (vecReprCCodec isizeCodec isizeReprC).ser v xs
        = regular_serialize_vec isizeCodec v xs) := by
  refine ⟨?_, fun _ _ => rfl, fun _ _ => rfl, fun _ _ => rfl, fun _ _ => rfl,
    fun _ _ => rfl, fun _ _ => rfl, fun _ _ => rfl, fun _ _ => rfl,
    fun _ _ => rfl, fun _ _ => rfl⟩
  intro α c r gr v xs hsafe hval
  show (if r.repr_c_optimization_safe v then
      u64le xs.length ++ (xs.map r.memBytes).flatten
    else regular_serialize_vec c v xs) = regular_serialize_vec c v xs
  rw [if_pos hsafe, regular_serialize_vec]
  congr 1
  congr 1
  exact List.map_congr_left fun x hx => gr.mem_ser v x (hval x hx) hsafe

/-- Witness for C9's generic conjunct: the fast path and the general path
agree on `[1, 2, 3] : Vec<u8>` at version 0. -/
theorem C9_witness :
    u8ReprC.repr_c_optimization_safe 0 = true ∧
    (∀ x ∈ ([1, 2, 3] : List Nat), u8Codec.valid x) ∧
    (vecReprCCodec u8Codec u8ReprC).ser 0 [1, 2, 3]
      = regular_serialize_vec u8Codec 0 [1, 2, 3] :=
  ⟨rfl, (by decide : ∀ x ∈ ([1, 2, 3] : List Nat), x < 2 ^ 8),
    C9_pod_path_equivalence.1 Nat u8Codec u8ReprC u8ReprC_good 0 [1, 2, 3] rfl
      (by decide : ∀ x ∈ ([1, 2, 3] : List Nat), x < 2 ^ 8)⟩

/-- C1: the save/load round-trip with schema enabled holds for every
built-in serializable type: the ten integer primitives, `String`, `Vec<T>`
(both the general path and the `ReprC`-specialized path, for any correct
element codec), and `HashMap<K, V>` (for any correct key/value codecs):
saving any valid value at any `u32` version and loading with the same
memory version succeeds and yields a value equal to the one saved. -/
theorem C1_builtin_roundtrip :
    RoundTrips u8Codec ∧ RoundTrips u16Codec ∧ RoundTrips u32Codec ∧
    RoundTrips u64Codec ∧ RoundTrips usizeCodec ∧ RoundTrips i8Codec ∧
    RoundTrips i16Codec ∧ RoundTrips i32Codec ∧ RoundTrips i64Codec ∧
    RoundTrips isizeCodec ∧ RoundTrips stringCodec ∧
    (∀ (α : Type) (c : Codec α), GoodCodec c → RoundTrips (vecCodec c)) ∧
    (∀ (α : Type) (c : Codec α) (r : ReprC α), GoodCodec c → GoodReprC c r →
      RoundTrips (vecReprCCodec c r)) ∧
    (∀ (K V : Type) (dk : DecidableEq K) (kc : Codec K) (vc : Codec V),
      GoodCodec kc → GoodCodec vc → RoundTrips (@hmapCodec K V dk kc vc)) := by
  refine ⟨roundTrips_of_good _ u8Codec_good, roundTrips_of_good _ u16Codec_good,
    roundTrips_of_good _ u32Codec_good, roundTrips_of_good _ u64Codec_good,
    roundTrips_of_good _ usizeCodec_good, roundTrips_of_good _ i8Codec_good,
    roundTrips_of_good _ i16Codec_good, roundTrips_of_good _ i32Codec_good,
    roundTrips_of_good _ i64Codec_good, roundTrips_of_good _ isizeCodec_good,
    roundTrips_of_good _ stringCodec_good,
    fun α c g => roundTrips_of_good _ (vecCodec_good c g),
    fun α c r g gr => roundTrips_of_good _ (vecReprCCodec_good c r g gr),
    fun K V dk kc vc gk gv => roundTrips_of_good _ (@hmapCodec_good K V dk kc vc gk gv)⟩

/-- Witness for C1 at concrete values: `u32 = 0x01020304` at version 1, the
UTF-8 string "hé" at version 0, `Vec<u8> = [1,2,3]` through the `ReprC`
path at version 0, `Vec<u8>` through the general path, and
`HashMap<u8, u32> = {1 ↦ 10, 2 ↦ 20}` at version 2 — all round-trip with
schema enabled, preserving trailing bytes. -/
theorem C1_witness :
    load_impl u32Codec 1 true (save_impl u32Codec 1 0x01020304 true ++ [7])
      = (.ok 0x01020304, [7]) ∧
    load_impl stringCodec 0 true (save_impl stringCodec 0 [104, 195, 169] true ++ [])
      = (.ok [104, 195, 169], []) ∧
    load_impl (vecReprCCodec u8Codec u8ReprC) 0 true
      (save_impl (vecReprCCodec u8Codec u8ReprC) 0 [1, 2, 3] true ++ [])
      = (.ok [1, 2, 3], []) ∧
    load_impl (vecCodec u8Codec) 0 true
      (save_impl (vecCodec u8Codec) 0 [1, 2, 3] true ++ [])
      = (.ok [1, 2, 3], []) ∧
    load_impl (hmapCodec u8Codec u32Codec) 2 true
      (save_impl (hmapCodec u8Codec u32Codec) 2 ⟨[(1, 10), (2, 20)], by decide⟩ true ++ [])
      = (.ok ⟨[(1, 10), (2, 20)], by decide⟩, []) := by
  obtain ⟨h8, h16, h32, h64, hus, hi8, hi16, hi32, hi64, his, hstr, hvec, hrvec, hhmap⟩ :=
    C1_builtin_roundtrip
  refine ⟨h32 1 0x01020304 [7] (by norm_num)
      (by norm_num : (0x01020304 : Nat) < 2 ^ 32),
    hstr 0 [104, 195, 169] [] (by norm_num)
      (⟨by decide, by norm_num⟩ :
        utf8Valid [104, 195, 169] = true ∧ ([104, 195, 169] : List Nat).length < 2 ^ 64),
    hrvec Nat u8Codec u8ReprC u8Codec_good u8ReprC_good 0 [1, 2, 3] [] (by norm_num)
      (⟨by norm_num, by decide⟩ :
        ([1, 2, 3] : List Nat).length < 2 ^ 64 ∧
          ∀ x ∈ ([1, 2, 3] : List Nat), x < 2 ^ 8),
    hvec Nat u8Codec u8Codec_good 0 [1, 2, 3] [] (by norm_num)
      (⟨by norm_num, by decide⟩ :
        ([1, 2, 3] : List Nat).length < 2 ^ 64 ∧
          ∀ x ∈ ([1, 2, 3] : List Nat), x < 2 ^ 8),
    hhmap Nat Nat instDecidableEqNat u8Codec u32Codec u8Codec_good u32Codec_good 2
      ⟨[(1, 10), (2, 20)], by decide⟩ [] (by norm_num)
      (⟨by norm_num, by decide⟩ :
        ([(1, 10), (2, 20)] : List (Nat × Nat)).length < 2 ^ 64 ∧
          ∀ p ∈ ([(1, 10), (2, 20)] : List (Nat × Nat)), p.1 < 2 ^ 8 ∧ p.2 < 2 ^ 32)⟩

theorem deserPrimitiveSt_bad (c : Nat) (hc : c < 2 ^ 16) (h : c = 0 ∨ 12 ≤ c)
    (rest : List Nat) :
    deserPrimitiveSt (u16le c ++ rest) = (.fatal (.corruptPrimitive c), rest) := by
  rcases h with rfl | h12
  · simp only [deserPrimitiveSt, readU16St_small 0 (by norm_num)]
  · obtain ⟨k, rfl⟩ : ∃ k, c = k + 12 := ⟨c - 12, by omega⟩
    simp only [deserPrimitiveSt, readU16St_small (k + 12) hc]

theorem schemaDeserialize_bad (c : Nat) (hc : c < 2 ^ 16) (h : c = 0 ∨ 6 ≤ c)
    (rest : List Nat) :
    Schema.deserialize (u16le c ++ rest) = (.fatal (.corruptSchemaVariant c), rest) := by
  rw [Schema.deserialize]
  rcases h with rfl | h6
  · simp only [deserSchemaF, readU16St_small 0 (by norm_num)]
  · obtain ⟨k, rfl⟩ : ∃ k, c = k + 6 := ⟨c - 6, by omega⟩
    simp only [deserSchemaF, readU16St_small (k + 6) hc]

/-- C6: the wire discriminators are closed sets, exactly the spec's tables.
(1) `SchemaPrimitive::serialize` writes exactly the table
`1 i8, 2 u8, 3 i16, 4 u16, 5 i32, 6 u32, 7 i64, 8 u64, 9 isize, 10 usize,
11 string` as a `u16`; (2) each discriminator in `1..11` decodes to that
primitive; (3) any other `u16` is the fatal "Corrupt schema, primitive
type" panic; (4) `Schema::serialize` writes exactly the tag
`1 Struct, 2 Enum, 3 Primitive, 4 Vector, 5 Undefined` first; (5) each tag
decodes to the corresponding variant (re-reading any well-formed serialized
schema returns it); (6) any `u16` tag outside `1..5` is the fatal "Corrupt
schema, schema variant" panic. -/
theorem C6_closed_discriminator_sets :
    (serPrimitive .schema_i8 = u16le 1 ∧ serPrimitive .schema_u8 = u16le 2 ∧
      serPrimitive .schema_i16 = u16le 3 ∧ serPrimitive .schema_u16 = u16le 4 ∧
      serPrimitive .schema_i32 = u16le 5 ∧ serPrimitive .schema_u32 = u16le 6 ∧
      serPrimitive .schema_i64 = u16le 7 ∧ serPrimitive .schema_u64 = u16le 8 ∧
      serPrimitive .schema_isize = u16le 9 ∧ serPrimitive .schema_usize = u16le 10 ∧
      serPrimitive .schema_string = u16le 11) ∧
    (∀ rest : List Nat,
      deserPrimitiveSt (u16le 1 ++ rest) = (.ok .schema_i8, rest) ∧
      deserPrimitiveSt (u16le 2 ++ rest) = (.ok .schema_u8, rest) ∧
      deserPrimitiveSt (u16le 3 ++ rest) = (.ok .schema_i16, rest) ∧
      deserPrimitiveSt (u16le 4 ++ rest) = (.ok .schema_u16, rest) ∧
      deserPrimitiveSt (u16le 5 ++ rest) = (.ok .schema_i32, rest) ∧
      deserPrimitiveSt (u16le 6 ++ rest) = (.ok .schema_u32, rest) ∧
      deserPrimitiveSt (u16le 7 ++ rest) = (.ok .schema_i64, rest) ∧
      deserPrimitiveSt (u16le 8 ++ rest) = (.ok .schema_u64, rest) ∧
      deserPrimitiveSt (u16le 9 ++ rest) = (.ok .schema_isize, rest) ∧
      deserPrimitiveSt (u16le 10 ++ rest) = (.ok .schema_usize, rest) ∧
      deserPrimitiveSt (u16le 11 ++ rest) = (.ok .schema_string, rest)) ∧
    (∀ (c : Nat) (rest : List Nat), c < 2 ^ 16 → c = 0 ∨ 12 ≤ c →
      deserPrimitiveSt (u16le c ++ rest) = (.fatal (.corruptPrimitive c), rest)) ∧
    (∀ s : Schema, (1 ≤ schemaTag s ∧ schemaTag s ≤ 5) ∧
      ∃ tail, serSchema s = u16le (schemaTag s) ++ tail) ∧
    (∀ s : Schema, schemaWf s = true → ∀ rest : List Nat,
      Schema.deserialize (serSchema s ++ rest) = (.ok s, rest)) ∧
    (∀ (c : Nat) (rest : List Nat), c < 2 ^ 16 → c = 0 ∨ 6 ≤ c →
      Schema.deserialize (u16le c ++ rest) = (.fatal (.corruptSchemaVariant c), rest)) := by
  refine ⟨⟨rfl, rfl, rfl, rfl, rfl, rfl, rfl, rfl, rfl, rfl, rfl⟩, ?_, ?_, ?_, ?_, ?_⟩
  · intro rest
    exact ⟨deserPrimitiveSt_ser .schema_i8 rest, deserPrimitiveSt_ser .schema_u8 rest,
      deserPrimitiveSt_ser .schema_i16 rest, deserPrimitiveSt_ser .schema_u16 rest,
      deserPrimitiveSt_ser .schema_i32 rest, deserPrimitiveSt_ser .schema_u32 rest,
      deserPrimitiveSt_ser .schema_i64 rest, deserPrimitiveSt_ser .schema_u64 rest,
      deserPrimitiveSt_ser .schema_isize rest, deserPrimitiveSt_ser .schema_usize rest,
      deserPrimitiveSt_ser .schema_string rest⟩
  · intro c rest hc h
    exact deserPrimitiveSt_bad c hc h rest
  · intro s
    cases s with
    | Struct dbg fs =>
      exact ⟨by simp [schemaTag], serStr dbg ++ (u64le fs.length ++ serFields fs),
        by simp [serSchema, schemaTag]⟩
    | Enum vs =>
      exact ⟨by simp [schemaTag], u64le vs.length ++ serVariants vs,
        by simp [serSchema, schemaTag]⟩
    | Primitive p =>
      exact ⟨by simp [schemaTag], serPrimitive p, by simp [serSchema, schemaTag]⟩
    | Vector e =>
      exact ⟨by simp [schemaTag], serSchema e, by simp [serSchema, schemaTag]⟩
    | Undefined =>
      exact ⟨by simp [schemaTag], [], by simp [serSchema, schemaTag]⟩
  · intro s hwf rest
    exact Schema.deserialize_serSchema s hwf rest
  · intro c rest hc h
    exact schemaDeserialize_bad c hc h rest

/-- Witness for C6: discriminator 7 decodes to `i64`; the out-of-range
discriminator 99 and tag 99 are fatal corrupt-stream panics. -/
theorem C6_witness :
    deserPrimitiveSt (u16le 7 ++ [1]) = (.ok .schema_i64, [1]) ∧
    ((99 : Nat) < 2 ^ 16 ∧ (99 : Nat) = 0 ∨ 12 ≤ (99 : Nat)) ∧
    deserPrimitiveSt (u16le 99 ++ [1]) = (.fatal (.corruptPrimitive 99), [1]) ∧
    Schema.deserialize (u16le 99 ++ [1]) = (.fatal (.corruptSchemaVariant 99), [1]) ∧
    schemaWf (Schema.Primitive .schema_u8) = true ∧
    Schema.deserialize (serSchema (Schema.Primitive .schema_u8) ++ [5])
      = (.ok (Schema.Primitive .schema_u8), [5]) := by
  obtain ⟨hser, hdec, hbad, htag, hrt, hbadtag⟩ := C6_closed_discriminator_sets
  refine ⟨(hdec [1]).2.2.2.2.2.2.1, by norm_num, ?_, ?_, ?_, ?_⟩
  · exact hbad 99 [1] (by norm_num) (by norm_num)
  · exact hbadtag 99 [1] (by norm_num) (by norm_num)
  · simp [schemaWf]
  · exact hrt (Schema.Primitive .schema_u8) (by simp [schemaWf]) [5]

/-! ### HashMap insertion semantics (for the duplicate-key claim) -/

theorem find?_replace_ne [DecidableEq K] (l : List (K × V)) (k k' : K) (w : V)
    (hne : k' ≠ k) :
    ((l.map fun p => if p.1 = k then (p.1, w) else p).find? fun p => decide (p.1 = k'))
      = l.find? fun p => decide (p.1 = k') := by
  induction l with
  | nil => rfl
  | cons p l' ih =>
    by_cases hp : p.1 = k
    · rw [List.map_cons, if_pos hp]
      rw [List.find?_cons, List.find?_cons]
      have : (decide (p.1 = k') : Bool) = false := by
        simp [hp]
        exact fun h => hne h.symm
      simp only [this, ih]
    · rw [List.map_cons, if_neg hp]
      rw [List.find?_cons, List.find?_cons]
      cases hd : (decide (p.1 = k') : Bool) with
      | true => rfl
      | false => exact ih

theorem find?_replace_eq [DecidableEq K] (l : List (K × V)) (k : K) (w : V)
    (hmem : k ∈ l.map Prod.fst) :
    ((l.map fun p => if p.1 = k then (p.1, w) else p).find? fun p => decide (p.1 = k))
      = some (k, w) := by
  induction l with
  | nil => simp at hmem
  | cons p l' ih =>
    by_cases hp : p.1 = k
    · rw [List.map_cons, if_pos hp, List.find?_cons]
      simp [hp]
    · rw [List.map_cons, if_neg hp, List.find?_cons]
      have hd : (decide (p.1 = k) : Bool) = false := by simp [hp]
      simp only [hd]
      refine ih ?_
      rw [List.map_cons, List.mem_cons] at hmem
      rcases hmem with h | h
      · exact absurd h.symm hp
      · exact h

theorem find?_key_not_mem [DecidableEq K] (l : List (K × V)) (k : K)
    (h : k ∉ l.map Prod.fst) :
    (l.find? fun p => decide (p.1 = k)) = none := by
  rw [List.find?_eq_none]
  intro p hp
  simp only [decide_eq_true_eq]
  intro hk
  exact h (hk ▸ List.mem_map_of_mem Prod.fst hp)

/-- `HashMap::insert` at the observation level: the inserted key now maps to
the new value, every other key is untouched. -/
theorem HMap.lookup_insert [DecidableEq K] (m : HMap K V) (k k' : K) (w : V) :
    (m.insert k w).lookup k' = if k' = k then some w else m.lookup k' := by
  rw [HMap.lookup, HMap.lookup, HMap.insert]
  by_cases hmem : k ∈ m.val.map Prod.fst
  · rw [dif_pos hmem]
    by_cases hk : k' = k
    · subst hk
      rw [find?_replace_eq m.val k' w hmem, if_pos rfl]
      rfl
    · rw [find?_replace_ne m.val k k' w hk, if_neg hk]
  · rw [dif_neg hmem]
    simp only [List.find?_append]
    by_cases hk : k' = k
    · subst hk
      rw [find?_key_not_mem m.val k' hmem, if_pos rfl]
      simp
    · have : (([(k, w)] : List (K × V)).find? fun p => decide (p.1 = k')) = none := by
        simp
        exact fun h => hk h.symm
      rw [this, if_neg hk, Option.or_none]

/-- `(m.insert k w)` has at most one more entry than `m`. -/
theorem HMap.insert_length_le [DecidableEq K] (m : HMap K V) (k : K) (w : V) :
    (m.insert k w).val.length ≤ m.val.length + 1 := by
  rw [HMap.insert]
  by_cases hmem : k ∈ m.val.map Prod.fst
  · rw [dif_pos hmem]
    simp
  · rw [dif_neg hmem]
    simp

/-- The deserialization loop over an arbitrary wire pair list (duplicates
allowed): it folds `insert` over the pairs in wire order. -/
theorem hmapLoop_full [DecidableEq K] (kc : Codec K) (vc : Codec V)
    (hk : ∀ v x rest, kc.valid x → kc.deser v (kc.ser v x ++ rest) = (.ok x, rest))
    (hw : ∀ v x rest, vc.valid x → vc.deser v (vc.ser v x ++ rest) = (.ok x, rest))
    (v : Nat) :
    ∀ (ps : List (K × V)) (m0 : HMap K V) (rest : List Nat),
      (∀ p ∈ ps, kc.valid p.1 ∧ vc.valid p.2) →
      hmapLoop kc vc v ps.length m0
        ((ps.map fun p => kc.ser v p.1 ++ vc.ser v p.2).flatten ++ rest)
        = (.ok (ps.foldl (fun m p => m.insert p.1 p.2) m0), rest) := by
  intro ps
  induction ps with
  | nil => intro m0 rest _; simp [hmapLoop]
  | cons p ps' ih =>
    intro m0 rest hval
    obtain ⟨k, w⟩ := p
    simp only [List.map_cons, List.flatten_cons, List.append_assoc, List.length_cons,
      hmapLoop, hk v k _ (hval (k, w) (by simp)).1, hw v w _ (hval (k, w) (by simp)).2,
      List.foldl_cons]
    exact ih (m0.insert k w) rest (fun q hq => hval q (by simp [hq]))

theorem foldl_insert_lookup [DecidableEq K] :
    ∀ (ps : List (K × V)) (m0 : HMap K V) (k : K),
      (ps.foldl (fun m p => m.insert p.1 p.2) m0).lookup k
        = ((ps.reverse.find? fun p => decide (p.1 = k)).map Prod.snd).or (m0.lookup k) := by
  intro ps
  induction ps with
  | nil => intro m0 k; simp
  | cons p ps' ih =>
    intro m0 k
    rw [List.foldl_cons, ih (m0.insert p.1 p.2) k, HMap.lookup_insert,
      List.reverse_cons, List.find?_append]
    cases hfind : ps'.reverse.find? fun q => decide (q.1 = k) with
    | some q => simp [Option.or]
    | none =>
      simp only [Option.map_none, Option.none_or]
      by_cases hk : k = p.1
      · subst hk
        simp [List.find?_cons, Option.or]
      · have : (([p] : List (K × V)).find? fun q => decide (q.1 = k)) = none := by
          simp
          exact fun h => hk h.symm
        simp [this, if_neg hk]

theorem foldl_insert_length_le [DecidableEq K] :
    ∀ (ps : List (K × V)) (m0 : HMap K V),
      (ps.foldl (fun m p => m.insert p.1 p.2) m0).val.length
        ≤ m0.val.length + ps.length := by
  intro ps
  induction ps with
  | nil => intro m0; simp
  | cons p ps' ih =>
    intro m0
    rw [List.foldl_cons]
    calc (ps'.foldl (fun m p => m.insert p.1 p.2) (m0.insert p.1 p.2)).val.length
        ≤ (m0.insert p.1 p.2).val.length + ps'.length := ih (m0.insert p.1 p.2)
      _ ≤ (m0.val.length + 1) + ps'.length := by
          have := HMap.insert_length_le m0 p.1 p.2; omega
      _ = m0.val.length + (p :: ps').length := by simp; omega

/-- C8: deserializing a keyed mapping whose wire image is a length prefix
`l` followed by `l` key/value pairs (duplicate keys allowed) inserts the
pairs in wire order into a fresh map.  Consequently a key carried by
several pairs ends up bound to the value of the *last* such pair
(looking up any key in the result finds the last wire occurrence's value),
and the resulting map never has more than `l` entries. -/
theorem C8_hashmap_duplicate_keys_last_wins (K V : Type) (dk : DecidableEq K)
    (kc : Codec K) (vc : Codec V) (gk : GoodCodec kc) (gv : GoodCodec vc)
    (v : Nat) (ps : List (K × V)) (rest : List Nat)
    (hlen : ps.length < 2 ^ 64)
    (hval : ∀ p ∈ ps, kc.valid p.1 ∧ vc.valid p.2) :
    (hmapCodec kc vc).deser v
        (u64le ps.length ++ (ps.map fun p => kc.ser v p.1 ++ vc.ser v p.2).flatten ++ rest)
      = (.ok (ps.foldl (fun m p => m.insert p.1 p.2) (HMap.empty K V)), rest) ∧
    (∀ k : K, (ps.foldl (fun m p => m.insert p.1 p.2) (HMap.empty K V)).lookup k
      = (ps.reverse.find? fun p => decide (p.1 = k)).map Prod.snd) ∧
    (ps.foldl (fun m p => m.insert p.1 p.2) (HMap.empty K V)).val.length ≤ ps.length := by
  refine ⟨?_, ?_, ?_⟩
  · show (match readU64St (u64le ps.length ++
        ((ps.map fun p => kc.ser v p.1 ++ vc.ser v p.2).flatten ++ rest)) with
      | (.ok n, r) => hmapLoop kc vc v n (HMap.empty K V) r
      | (.err e, r) => (.err e, r)
      | (.fatal p, r) => (.fatal p, r)) = _
    simp only [readU64St_small ps.length hlen,
      hmapLoop_full kc vc gk.ser_deser gv.ser_deser v ps (HMap.empty K V) rest hval]
  · intro k
    rw [foldl_insert_lookup ps (HMap.empty K V) k]
    simp [HMap.empty, HMap.lookup]
  · have := foldl_insert_length_le ps (HMap.empty K V)
    simpa [HMap.empty] using this

/-- Witness for C8: the wire pairs `[(1, 10), (1, 20)]` (duplicate key `1`)
decode to a map where key `1` is bound to `20` (the later pair) and whose
size is `1 ≤ 2`. -/
theorem C8_witness :
    (([( 1, 10), (1, 20)] : List (Nat × Nat)).length < 2 ^ 64 ∧
      ∀ p ∈ ([(1, 10), (1, 20)] : List (Nat × Nat)), p.1 < 2 ^ 8 ∧ p.2 < 2 ^ 8) ∧
    ((([(1, 10), (1, 20)] : List (Nat × Nat)).foldl
        (fun m p => m.insert p.1 p.2) (HMap.empty Nat Nat)).lookup 1 = some 20 ∧
      (([(1, 10), (1, 20)] : List (Nat × Nat)).foldl
        (fun m p => m.insert p.1 p.2) (HMap.empty Nat Nat)).val.length ≤ 2) := by
  have h := C8_hashmap_duplicate_keys_last_wins Nat Nat instDecidableEqNat
    u8Codec u8Codec u8Codec_good u8Codec_good 0 [(1, 10), (1, 20)] []
    (by norm_num)
    (by decide : ∀ p ∈ ([(1, 10), (1, 20)] : List (Nat × Nat)), p.1 < 2 ^ 8 ∧ p.2 < 2 ^ 8)
  refine ⟨⟨by norm_num, by decide⟩, ?_, h.2.2⟩
  rw [h.2.1 1]
  rfl

end Savefile
